import Mathlib

/-!
# Verification of the DocTranslate core pipeline

A shallow embedding, over `List Char`, of the core of the DocTranslate
repository: the tag formatter (`src/core/formatters.py`), the glossary
engine (`src/core/glossary.py`), the translation engines
(`src/core/engines/google_engine.py`, `src/core/engines/deepl_engine.py`)
and the paragraph orchestrator (`src/core/translator.py`).

Strings are modelled as `List Char`.  Python truthiness of optional string
or numeric fields is modelled explicitly (`none` and the empty/zero value
are both falsy).  Regular-expression operations of the source are modelled
by hand-written scanners with the same left-to-right, leftmost-match
semantics.  Character classes (`[a-z]`, `\w`, `\s`, `str.lower`) are
modelled over the ASCII range plus the Turkish letters actually used by
the repository; this matches Python on every string built from those
alphabets.
-/

namespace DocTranslate

/-! ## Basic character classes and Python-style string helpers -/

/-- Python whitespace for `str.strip` (ASCII subset). -/
def isSpaceCh (c : Char) : Bool :=
  c = ' ' || c = '\t' || c = '\n' || c = '\r' || c = '\x0b' || c = '\x0c'

/-- The regex class `[a-z]` (ASCII, as in Python's `re`). -/
def isLowerAZ (c : Char) : Bool := 97 ≤ c.toNat && c.toNat ≤ 122

/-- The regex class `[A-Z]` (ASCII, as in Python's `re`). -/
def isUpperAZ (c : Char) : Bool := 65 ≤ c.toNat && c.toNat ≤ 90

/-- Decimal digit. -/
def isDigitCh (c : Char) : Bool := 48 ≤ c.toNat && c.toNat ≤ 57

/-- The Turkish letters the repository works with, beyond ASCII. -/
def turkishLetters : List Char :=
  ['ç', 'ğ', 'ı', 'ö', 'ş', 'ü', 'Ç', 'Ğ', 'İ', 'Ö', 'Ş', 'Ü']

/-- The regex class `\w` (word character), restricted to the ASCII and
Turkish alphabets used by the repository. -/
def isWordCh (c : Char) : Bool :=
  isLowerAZ c || isUpperAZ c || isDigitCh c || c = '_' || turkishLetters.contains c

/-- Case folding for `re.IGNORECASE` / `str.lower`, over the same
alphabets (ASCII plus the Turkish letters). -/
def lowerCh (c : Char) : Char :=
  if isUpperAZ c then Char.ofNat (c.toNat + 32)
  else if c = 'Ç' then 'ç' else if c = 'Ğ' then 'ğ'
  else if c = 'Ö' then 'ö' else if c = 'Ş' then 'ş'
  else if c = 'Ü' then 'ü' else c

/-- `str.lower`. -/
def lowerStr (s : List Char) : List Char := s.map lowerCh

/-- `str.strip()`: drop leading and trailing whitespace. -/
def pyStrip (s : List Char) : List Char :=
  ((s.dropWhile isSpaceCh).reverse.dropWhile isSpaceCh).reverse

/-- Python's substring test `p in s`. -/
def containsSub (p : List Char) : List Char → Bool
  | [] => p.isEmpty
  | c :: t => p.isPrefixOf (c :: t) || containsSub p t

/-- Declarative substring occurrence. -/
def SubP (p s : List Char) : Prop := ∃ a b, s = a ++ p ++ b

theorem isPrefixOf_iff {p s : List Char} : p.isPrefixOf s = true ↔ p <+: s := by
  exact List.isPrefixOf_iff_prefix

theorem containsSub_iff_SubP (p s : List Char) : containsSub p s = true ↔ SubP p s := by
  induction s with
  | nil =>
    simp only [containsSub, List.isEmpty_iff, SubP]
    constructor
    · rintro rfl; exact ⟨[], [], rfl⟩
    · rintro ⟨a, b, h⟩
      rcases List.append_eq_nil.1 h.symm with ⟨h1, h2⟩
      exact (List.append_eq_nil.1 h1).2
  | cons c t ih =>
    simp only [containsSub, Bool.or_eq_true, isPrefixOf_iff, ih]
    constructor
    · rintro (⟨r, hr⟩ | ⟨a, b, hab⟩)
      · exact ⟨[], r, by simpa using hr.symm⟩
      · exact ⟨c :: a, b, by simp [hab]⟩
    · rintro ⟨a, b, hab⟩
      cases a with
      | nil => exact Or.inl ⟨b, by simpa using hab.symm⟩
      | cons x a' =>
        right
        refine ⟨a', b, ?_⟩
        simp only [List.cons_append] at hab
        exact (List.cons.injEq _ _ _ _ ▸ hab).2

theorem SubP_nil_iff {p : List Char} : SubP p [] ↔ p = [] := by
  constructor
  · rintro ⟨a, b, h⟩
    rcases List.append_eq_nil.1 h.symm with ⟨h1, h2⟩
    exact (List.append_eq_nil.1 h1).2
  · rintro rfl; exact ⟨[], [], rfl⟩

/-- Fuel-driven body of `str.replace` (structural recursion, so the
kernel can evaluate it; the fuel never runs out when it is at least the
length of the string). -/
def replaceAllF (p v : List Char) : Nat → List Char → List Char
  | _, [] => []
  | 0, s => s
  | f + 1, c :: t =>
    if p ≠ [] ∧ p.isPrefixOf (c :: t) then
      v ++ replaceAllF p v f ((c :: t).drop p.length)
    else
      c :: replaceAllF p v f t

/-- Python `str.replace(p, v)`: replace all non-overlapping occurrences,
left to right.  (All patterns used by the repository are non-empty.) -/
def replaceAll (p v s : List Char) : List Char := replaceAllF p v s.length s

theorem replaceAllF_congr (p v : List Char) :
    ∀ (L : Nat) (s : List Char), s.length ≤ L → ∀ n m : Nat,
      s.length ≤ n → s.length ≤ m → replaceAllF p v n s = replaceAllF p v m s := by
  intro L
  induction L with
  | zero =>
    intro s hs n m _ _
    have : s = [] := List.length_eq_zero.1 (Nat.le_zero.1 hs)
    subst this
    cases n <;> cases m <;> rfl
  | succ L ih =>
    intro s hs n m hn hm
    cases s with
    | nil => cases n <;> cases m <;> rfl
    | cons c t =>
      cases n with
      | zero => simp at hn
      | succ n =>
        cases m with
        | zero => simp at hm
        | succ m =>
          simp only [replaceAllF]
          by_cases hcond : p ≠ [] ∧ p.isPrefixOf (c :: t)
          · rw [if_pos hcond, if_pos hcond]
            have hp : 0 < p.length := List.length_pos.2 hcond.1
            have hd : ((c :: t).drop p.length).length ≤ L := by
              simp only [List.length_drop, List.length_cons] at *
              omega
            exact congrArg (v ++ ·) (ih _ hd n m
              (by simp only [List.length_drop, List.length_cons] at *; omega)
              (by simp only [List.length_drop, List.length_cons] at *; omega))
          · rw [if_neg hcond, if_neg hcond]
            exact congrArg (c :: ·) (ih t
              (by simp only [List.length_cons] at hs; omega) n m
              (by simp only [List.length_cons] at hn; omega)
              (by simp only [List.length_cons] at hm; omega))

theorem replaceAll_nil (p v : List Char) : replaceAll p v [] = [] := rfl

theorem replaceAll_cons (p v : List Char) (c : Char) (t : List Char) :
    replaceAll p v (c :: t)
      = if p ≠ [] ∧ p.isPrefixOf (c :: t) then
          v ++ replaceAll p v ((c :: t).drop p.length)
        else
          c :: replaceAll p v t := by
  show replaceAllF p v (t.length + 1) (c :: t) = _
  simp only [replaceAllF]
  by_cases hcond : p ≠ [] ∧ p.isPrefixOf (c :: t)
  · rw [if_pos hcond, if_pos hcond]
    have hp : 0 < p.length := List.length_pos.2 hcond.1
    refine congrArg (v ++ ·) (replaceAllF_congr p v t.length _ ?_ _ _ ?_ ?_) <;>
      simp only [List.length_drop, List.length_cons] <;> omega
  · rw [if_neg hcond, if_neg hcond]
    exact congrArg (c :: ·) (replaceAllF_congr p v t.length t le_rfl _ _ (by omega) le_rfl)

/-! ## Decimal rendering and parsing of run indices -/

/-- One decimal digit as a character. -/
def digitCh (d : Nat) : Char := Char.ofNat (48 + d)

/-- Big-endian decimal digits with explicit fuel (structural recursion so
that the kernel can evaluate it; the fuel never runs out when it is at
least `n`). -/
def natToDigitsAux : Nat → Nat → List Char
  | _, 0 => []
  | 0, _ + 1 => []
  | f + 1, n + 1 => natToDigitsAux f ((n + 1) / 10) ++ [digitCh ((n + 1) % 10)]

/-- `str(n)` for a natural number. -/
def natToDigits (n : Nat) : List Char :=
  if n = 0 then ['0'] else natToDigitsAux n n

/-- `int(s)` on a string of decimal digits. -/
def digitsVal (s : List Char) : Nat :=
  s.foldl (fun a c => a * 10 + (c.toNat - 48)) 0

theorem digitsVal_append (a b : List Char) :
    digitsVal (a ++ b) = b.foldl (fun x c => x * 10 + (c.toNat - 48)) (digitsVal a) := by
  simp [digitsVal, List.foldl_append]

theorem digitCh_toNat {d : Nat} (hd : d < 10) : (digitCh d).toNat - 48 = d := by
  interval_cases d <;> rfl

theorem digitsVal_natToDigitsAux :
    ∀ (f n : Nat), n ≤ f → digitsVal (natToDigitsAux f n) = n := by
  intro f
  induction f with
  | zero =>
    intro n h
    have : n = 0 := Nat.le_zero.1 h
    subst this
    rfl
  | succ f ih =>
    intro n h
    cases n with
    | zero => rfl
    | succ m =>
      rw [natToDigitsAux, digitsVal_append]
      simp only [List.foldl_cons, List.foldl_nil]
      rw [digitCh_toNat (Nat.mod_lt _ (by norm_num))]
      have hdiv : (m + 1) / 10 ≤ f := by
        have := Nat.div_lt_self (Nat.succ_pos m) (by norm_num : 1 < 10)
        omega
      rw [ih ((m + 1) / 10) hdiv]
      omega

theorem digitsVal_natToDigits (n : Nat) : digitsVal (natToDigits n) = n := by
  by_cases h : n = 0
  · subst h; rfl
  · rw [natToDigits, if_neg h]
    exact digitsVal_natToDigitsAux n n le_rfl

theorem natToDigits_injective : Function.Injective natToDigits := by
  intro a b h
  have := congrArg digitsVal h
  rwa [digitsVal_natToDigits, digitsVal_natToDigits] at this

theorem natToDigits_ne_nil (n : Nat) : natToDigits n ≠ [] := by
  by_cases h : n = 0
  · subst h; simp [natToDigits]
  · rw [natToDigits, if_neg h]
    obtain ⟨m, rfl⟩ := Nat.exists_eq_succ_of_ne_zero h
    rw [natToDigitsAux]
    simp

theorem natToDigitsAux_all_digit :
    ∀ (f n : Nat), ∀ c ∈ natToDigitsAux f n, isDigitCh c = true := by
  intro f
  induction f with
  | zero =>
    intro n c hc
    cases n <;> simp [natToDigitsAux] at hc
  | succ f ih =>
    intro n c hc
    cases n with
    | zero => simp [natToDigitsAux] at hc
    | succ m =>
      rw [natToDigitsAux] at hc
      rcases List.mem_append.1 hc with hmem | hmem
      · exact ih _ c hmem
      · have : c = digitCh ((m + 1) % 10) := by simpa using hmem
        subst this
        have hlt : (m + 1) % 10 < 10 := Nat.mod_lt _ (by norm_num)
        interval_cases h : (m + 1) % 10 <;> rfl

theorem natToDigits_all_digit (n : Nat) : ∀ c ∈ natToDigits n, isDigitCh c = true := by
  intro c hc
  by_cases h : n = 0
  · subst h; simp [natToDigits] at hc; subst hc; rfl
  · rw [natToDigits, if_neg h] at hc
    exact natToDigitsAux_all_digit n n c hc

/-! ## Glossary engine (`src/core/glossary.py`) -/

/-- Convenience: string literal to char list. -/
def toL (s : String) : List Char := s.toList

/-- Stable insertion keeping longer elements first
(`sorted(key=len, reverse=True)` places an earlier element before later
elements of equal length). -/
def insLenDesc {α : Type} (f : α → Nat) (x : α) : List α → List α
  | [] => [x]
  | y :: ys => if f y ≤ f x then x :: y :: ys else y :: insLenDesc f x ys

/-- `sorted(l, key=len, reverse=True)` (stable, descending length). -/
def sortLenDesc {α : Type} (f : α → Nat) : List α → List α
  | [] => []
  | x :: xs => insLenDesc f x (sortLenDesc f xs)

/-- `none` / out-of-string counts as a non-word position for `\b`. -/
def isWordO : Option Char → Bool
  | none => false
  | some c => isWordCh c

/-- Case-insensitive equality of two strings of equal length. -/
def ciEq (a b : List Char) : Bool :=
  a.length = b.length && (a.zip b).all (fun p => lowerCh p.1 = lowerCh p.2)

/-- Does `\b` ++ re.escape(term) ++ `\b` (re.IGNORECASE) match at the start
of `s`, where `prev` is the character just before `s` in the whole text? -/
def wbMatchAt (term : List Char) (prev : Option Char) (s : List Char) : Bool :=
  !term.isEmpty &&
  ciEq (s.take term.length) term &&
  (isWordO prev != isWordO (s.take term.length).head?) &&
  (isWordO (s.take term.length).getLast? != isWordO (s.drop term.length).head?)

theorem wbMatchAt_term_ne_nil {term : List Char} {prev : Option Char} {s : List Char}
    (h : wbMatchAt term prev s = true) : term ≠ [] := by
  simp only [wbMatchAt, Bool.and_eq_true, Bool.not_eq_true', List.isEmpty_iff] at h
  intro hc
  rw [hc] at h
  simp at h

theorem wbMatchAt_le_length {term : List Char} {prev : Option Char} {s : List Char}
    (h : wbMatchAt term prev s = true) : term.length ≤ s.length := by
  simp only [wbMatchAt, Bool.and_eq_true, ciEq, decide_eq_true_eq] at h
  have := h.1.1.2.1
  rw [List.length_take] at this
  omega

/-- Fuel-driven body of the word-boundary substitution. -/
def subWBGoF (term repl : List Char) : Nat → Option Char → List Char → List Char
  | _, _, [] => []
  | 0, _, s => s
  | f + 1, prev, c :: t =>
    if wbMatchAt term prev (c :: t) then
      repl ++ subWBGoF term repl f ((c :: t).take term.length).getLast?
        ((c :: t).drop term.length)
    else
      c :: subWBGoF term repl f (some c) t

/-- `pattern.sub(repl, text)` for the word-boundary pattern: replace every
match, scanning left to right, `prev` holding the character before the
current position. -/
def subWBGo (term repl : List Char) (prev : Option Char) (s : List Char) : List Char :=
  subWBGoF term repl s.length prev s

theorem subWBGoF_congr (term repl : List Char) :
    ∀ (L : Nat) (s : List Char), s.length ≤ L → ∀ (prev : Option Char) (n m : Nat),
      s.length ≤ n → s.length ≤ m →
      subWBGoF term repl n prev s = subWBGoF term repl m prev s := by
  intro L
  induction L with
  | zero =>
    intro s hs prev n m _ _
    have : s = [] := List.length_eq_zero.1 (Nat.le_zero.1 hs)
    subst this
    cases n <;> cases m <;> rfl
  | succ L ih =>
    intro s hs prev n m hn hm
    cases s with
    | nil => cases n <;> cases m <;> rfl
    | cons c t =>
      cases n with
      | zero => simp at hn
      | succ n =>
        cases m with
        | zero => simp at hm
        | succ m =>
          simp only [subWBGoF]
          by_cases hmt : wbMatchAt term prev (c :: t) = true
          · rw [if_pos hmt, if_pos hmt]
            have h1 : 0 < term.length := List.length_pos.2 (wbMatchAt_term_ne_nil hmt)
            simp only [List.length_cons] at hs hn hm
            refine congrArg (repl ++ ·) (ih _ ?_ _ n m ?_ ?_) <;>
              simp only [List.length_drop, List.length_cons] <;> omega
          · rw [if_neg hmt, if_neg hmt]
            simp only [List.length_cons] at hs hn hm
            exact congrArg (c :: ·) (ih t (by omega) (some c) n m (by omega) (by omega))

theorem subWBGo_nil (term repl : List Char) (prev : Option Char) :
    subWBGo term repl prev [] = [] := rfl

theorem subWBGo_cons (term repl : List Char) (prev : Option Char) (c : Char) (t : List Char) :
    subWBGo term repl prev (c :: t)
      = if wbMatchAt term prev (c :: t) then
          repl ++ subWBGo term repl ((c :: t).take term.length).getLast?
            ((c :: t).drop term.length)
        else
          c :: subWBGo term repl (some c) t := by
  show subWBGoF term repl (t.length + 1) prev (c :: t) = _
  simp only [subWBGoF]
  by_cases hmt : wbMatchAt term prev (c :: t) = true
  · rw [if_pos hmt, if_pos hmt]
    have h1 : 0 < term.length := List.length_pos.2 (wbMatchAt_term_ne_nil hmt)
    refine congrArg (repl ++ ·) (subWBGoF_congr term repl
      ((c :: t).drop term.length).length _ le_rfl _ _ _ ?_ le_rfl)
    simp only [List.length_drop, List.length_cons]
    omega
  · rw [if_neg hmt, if_neg hmt]
    exact congrArg (c :: ·) (subWBGoF_congr term repl t.length t le_rfl _ _ _ (by omega) le_rfl)

def subWB (term repl s : List Char) : List Char := subWBGo term repl none s

/-- `pattern.search(text)` for the word-boundary pattern. -/
def searchWBGo (term : List Char) : Option Char → List Char → Bool
  | _, [] => false
  | prev, c :: t => wbMatchAt term prev (c :: t) || searchWBGo term (some c) t

def searchWB (term s : List Char) : Bool := searchWBGo term none s

/-- Forced-translation placeholder key `[_F{n}_]`. -/
def fKey (n : Nat) : List Char := ('[' :: '_' :: 'F' :: natToDigits n) ++ ['_', ']']

/-- Protected-term placeholder key `[_P{n}_]`. -/
def pKey (n : Nat) : List Char := ('[' :: '_' :: 'P' :: natToDigits n) ++ ['_', ']']

/-- The forced-translation loop of `GlossaryEngine.protect_text`: the key
index is `len(placeholders)` at insertion time (a counter shared with the
protected-term loop that follows). -/
def protectLoopF :
    List (List Char × List Char) → List Char → List (List Char × List Char) →
      List Char × List (List Char × List Char)
  | [], text, acc => (text, acc)
  | (src, tgt) :: rest, text, acc =>
    if searchWB src text then
      protectLoopF rest (subWB src (fKey acc.length) text) (acc ++ [(fKey acc.length, tgt)])
    else
      protectLoopF rest text acc

/-- The protected-term loop of `GlossaryEngine.protect_text` (continues the
same `len(placeholders)` counter; a protected term maps to itself). -/
def protectLoopP :
    List (List Char) → List Char → List (List Char × List Char) →
      List Char × List (List Char × List Char)
  | [], text, acc => (text, acc)
  | term :: rest, text, acc =>
    if searchWB term text then
      protectLoopP rest (subWB term (pKey acc.length) text) (acc ++ [(pKey acc.length, term)])
    else
      protectLoopP rest text acc

/-- `GlossaryEngine.protect_text`, with the category's protected list and
forced dict passed explicitly (the SQLite store is an external
collaborator). -/
def protect_text (protectedList : List (List Char))
    (forcedList : List (List Char × List Char)) (text : List Char) :
    List Char × List (List Char × List Char) :=
  let sortedForced := sortLenDesc (fun kv => kv.1.length) forcedList
  let sortedProtected := sortLenDesc List.length protectedList
  let out1 := protectLoopF sortedForced text []
  protectLoopP sortedProtected out1.1 out1.2

/-- `key.replace("[", "[ ").replace("]", " ]")`. -/
def spacedKey (k : List Char) : List Char :=
  replaceAll [']'] [' ', ']'] (replaceAll ['['] ['[', ' '] k)

/-- `GlossaryEngine.restore_text`. -/
def restore_text (text : List Char) (ph : List (List Char × List Char)) : List Char :=
  ph.foldl (fun acc kv => replaceAll (spacedKey kv.1) kv.2 (replaceAll kv.1 kv.2 acc)) text

/-- The fixed correction table of `GlossaryEngine.fix_concatenation_errors`
(in Python dict insertion order). -/
def corrections : List (List Char × List Char) :=
  [ (toL "Morelow", toL "Lower")
  , (toL "Morefast", toL "Faster")
  , (toL "Morelittle", toL "Less")
  , (toL "Drink data", toL "Internal data")
  , (toL "Linkedof", toL "LinkedIn")
  , (toL "linkedof", toL "LinkedIn")
  , (toL "DezAdvantages", toL "Disadvantages")
  , (toL "Dezadvantages", toL "Disadvantages")
  , (toL "RetAIl", toL "Retail")
  , (toL "Whenused", toL "When used")
  , (toL "productivityincrease", toL "productivity increase") ]

def applyCorrections (s : List Char) : List Char :=
  corrections.foldl (fun acc kv => replaceAll kv.1 kv.2 acc) s

/-- `re.sub(r'([a-z])([A-Z])', r'\1 \2', text)`: insert a space at every
lowercase→uppercase boundary, resuming the scan after each match. -/
def spaceLU : List Char → List Char
  | [] => []
  | [c] => [c]
  | a :: b :: rest =>
    if isLowerAZ a && isUpperAZ b then a :: ' ' :: b :: spaceLU rest
    else a :: spaceLU (b :: rest)

/-- `GlossaryEngine.fix_concatenation_errors`. -/
def fix_concatenation_errors (s : List Char) : List Char :=
  spaceLU (applyCorrections s)

/-! ## Tag formatter (`src/core/formatters.py`)

A run's style fields mirror the `python-docx` font attributes read and
written by `TagFormatter`; `none` models Python `None`, and Python
truthiness (`None`, `""`, `False`, `0` are falsy) is modelled by the
`truthy*` helpers. -/

structure RunStyle where
  bold : Option Bool
  italic : Option Bool
  underline : Option Bool
  color : Option (List Char)
  colorType : Option (List Char)
  size : Option Nat
  name : Option (List Char)
  highlight : Option (List Char)
  shading : Option (List Char)
  styleId : Option (List Char)
deriving DecidableEq, Repr

/-- A document run: its text, its raw font attributes, and the resolved
hyperlink URL when the run sits inside a `w:hyperlink` wrapper. -/
structure Run where
  text : List Char
  style : RunStyle
  hyperlink : Option (List Char)
deriving DecidableEq, Repr

def truthyS : Option (List Char) → Bool
  | none => false
  | some s => !s.isEmpty

def truthyB : Option Bool → Bool
  | none => false
  | some b => b

def truthyN : Option Nat → Bool
  | none => false
  | some n => n != 0

/-- The style dict captured per run by `paragraph_to_tagged_text`:
a direct copy of the font attributes, except that `color` is kept only
when truthy and the shading fill is kept only when non-empty and not
`"auto"`. -/
def captureStyle (st : RunStyle) : RunStyle :=
  { bold := st.bold
    italic := st.italic
    underline := st.underline
    color := if truthyS st.color then st.color else none
    colorType := st.colorType
    size := st.size
    name := st.name
    highlight := st.highlight
    shading :=
      match st.shading with
      | none => none
      | some f => if f ≠ [] ∧ f ≠ toL "auto" then some f else none
    styleId := st.styleId }

/-- Inline tag wrapping, applied in source order
bold → italic → underline → color → highlight. -/
def wrapText (st : RunStyle) (text : List Char) : List Char :=
  let t1 := if truthyB st.bold then toL "<b>" ++ text ++ toL "</b>" else text
  let t2 := if truthyB st.italic then toL "<i>" ++ t1 ++ toL "</i>" else t1
  let t3 := if truthyB st.underline then toL "<u>" ++ t2 ++ toL "</u>" else t2
  let t4 :=
    if truthyS st.color then
      toL "<c rgb=\"" ++ st.color.getD [] ++ toL "\">" ++ t3 ++ toL "</c>"
    else t3
  if truthyS st.highlight then
    toL "<h col=\"" ++ st.highlight.getD [] ++ toL "\">" ++ t4 ++ toL "</h>"
  else t4

/-- `[R{k}]`. -/
def openMark (k : Nat) : List Char := '[' :: 'R' :: natToDigits k ++ [']']

/-- `[/R{k}]`. -/
def closeMark (k : Nat) : List Char := '[' :: '/' :: 'R' :: natToDigits k ++ [']']

/-- The encoding loop of `paragraph_to_tagged_text`, with `k` the current
`run_counter`: runs with empty text are skipped (`if not text: continue`),
every other run gets the next index, and a hyperlink entry is recorded
when the resolved URL is truthy. -/
def encodeAux (k : Nat) : List Run → List Char × List RunStyle × List (Nat × List Char)
  | [] => ([], [], [])
  | r :: rs =>
    if r.text.isEmpty then encodeAux k rs
    else
      let rest := encodeAux (k + 1) rs
      (openMark k ++ wrapText r.style r.text ++ closeMark k ++ rest.1,
       captureStyle r.style :: rest.2.1,
       match r.hyperlink with
       | some u => if u.isEmpty then rest.2.2 else (k, u) :: rest.2.2
       | none => rest.2.2)

/-- `TagFormatter.paragraph_to_tagged_text`. -/
def paragraph_to_tagged_text (runs : List Run) :
    List Char × List RunStyle × List (Nat × List Char) :=
  encodeAux 0 runs

/-- `[/R{d}]` for a raw digit string `d` (the regex backreference `\1`). -/
def closePat (d : List Char) : List Char := '[' :: '/' :: 'R' :: d ++ [']']

/-- Find the earliest occurrence of `closePat d` (the non-greedy `(.*?)`):
returns the content before it and the remainder after it. -/
def splitOnClose (d : List Char) : List Char → Option (List Char × List Char)
  | [] => none
  | c :: rest =>
    if (closePat d).isPrefixOf (c :: rest) then
      some ([], (c :: rest).drop (closePat d).length)
    else
      match splitOnClose d rest with
      | some (pre, post) => some (c :: pre, post)
      | none => none

theorem splitOnClose_post_lt {d s pre post : List Char}
    (h : splitOnClose d s = some (pre, post)) : post.length < s.length := by
  induction s generalizing pre post with
  | nil => simp [splitOnClose] at h
  | cons c rest ih =>
    simp only [splitOnClose] at h
    split at h
    · rename_i hpre
      injection h with h1
      injection h1 with h1 h2
      subst h2
      have hle : (closePat d).length ≤ (c :: rest).length := (isPrefixOf_iff.1 hpre).length_le
      have hpos : 0 < (closePat d).length := by simp [closePat]
      simp only [List.length_drop, List.length_cons] at *
      omega
    · split at h
      · rename_i p q hp
        injection h with h1
        injection h1 with h1 h2
        subst h2
        have := ih hp
        simp only [List.length_cons]
        omega
      · exact absurd h (by simp)

/-- Try to match `\[R(\d+)\]` at the start of `s` (greedy digits followed
by the closing bracket): returns the digit string and the remainder. -/
def matchOpen (s : List Char) : Option (List Char × List Char) :=
  match s with
  | '[' :: 'R' :: s2 =>
    if (s2.takeWhile isDigitCh).isEmpty then none
    else
      match s2.drop (s2.takeWhile isDigitCh).length with
      | ']' :: rest => some (s2.takeWhile isDigitCh, rest)
      | _ => none
  | _ => none

theorem matchOpen_rest_lt {s d rest : List Char}
    (h : matchOpen s = some (d, rest)) : rest.length < s.length := by
  unfold matchOpen at h
  split at h
  · rename_i s2
    split at h
    · exact absurd h (by simp)
    · split at h
      · rename_i r heq
        injection h with h1
        injection h1 with h1 h2
        subst h2
        have := congrArg List.length heq
        simp only [List.length_drop, List.length_cons] at this ⊢
        omega
      · exact absurd h (by simp)
  · exact absurd h (by simp)

/-- Fuel-driven body of the span finder. -/
def findSpansF : Nat → List Char → List (List Char × List Char)
  | _, [] => []
  | 0, _ :: _ => []
  | f + 1, c :: t =>
    match matchOpen (c :: t) with
    | some (d, after) =>
      match splitOnClose d after with
      | some (content, post) => (d, content) :: findSpansF f post
      | none => findSpansF f t
    | none => findSpansF f t

/-- `re.findall(r'\[R(\d+)\](.*?)\[/R\1\]', tagged_text, re.DOTALL)`:
scan left to right; at each position try to match an opening marker and
then the earliest matching closing marker; on success continue after the
close, otherwise advance one character. -/
def findSpans (s : List Char) : List (List Char × List Char) := findSpansF s.length s

theorem findSpansF_congr :
    ∀ (L : Nat) (s : List Char), s.length ≤ L → ∀ n m : Nat,
      s.length ≤ n → s.length ≤ m → findSpansF n s = findSpansF m s := by
  intro L
  induction L with
  | zero =>
    intro s hs n m _ _
    have : s = [] := List.length_eq_zero.1 (Nat.le_zero.1 hs)
    subst this
    cases n <;> cases m <;> rfl
  | succ L ih =>
    intro s hs n m hn hm
    cases s with
    | nil => cases n <;> cases m <;> rfl
    | cons c t =>
      cases n with
      | zero => simp at hn
      | succ n =>
        cases m with
        | zero => simp at hm
        | succ m =>
          simp only [findSpansF, List.length_cons] at hs hn hm ⊢
          split
          · rename_i d after hmt
            split
            · rename_i content post hsp
              have h1 := matchOpen_rest_lt hmt
              have h2 := splitOnClose_post_lt hsp
              simp only [List.length_cons] at h1
              exact congrArg (fun x => (d, content) :: x)
                (ih post (by omega) n m (by omega) (by omega))
            · exact ih t (by omega) n m (by omega) (by omega)
          · exact ih t (by omega) n m (by omega) (by omega)

theorem findSpans_nil : findSpans [] = [] := rfl

theorem findSpans_cons (c : Char) (t : List Char) :
    findSpans (c :: t)
      = match matchOpen (c :: t) with
        | some (d, after) =>
          match splitOnClose d after with
          | some (content, post) => (d, content) :: findSpans post
          | none => findSpans t
        | none => findSpans t := by
  show findSpansF (t.length + 1) (c :: t) = _
  simp only [findSpansF]
  split
  · rename_i d after hmt
    split
    · rename_i content post hsp
      have h1 := matchOpen_rest_lt hmt
      have h2 := splitOnClose_post_lt hsp
      simp only [List.length_cons] at h1
      exact congrArg (fun x => (d, content) :: x)
        (findSpansF_congr post.length post le_rfl t.length post.length (by omega) le_rfl)
    · rfl
  · rfl

/-- One of `b i u c h`. -/
def biuch (c : Char) : Bool := c = 'b' || c = 'i' || c = 'u' || c = 'c' || c = 'h'

/-- Try to match `pre ++ [^"]* ++ "\">"` at the start of `s` (the patterns
`<c rgb="[^"]*">` and `<h col="[^"]*">`): returns the remainder. -/
def matchAttrTag (pre s : List Char) : Option (List Char) :=
  if pre.isPrefixOf s then
    match (s.drop pre.length).drop (((s.drop pre.length).takeWhile (· ≠ '"')).length) with
    | '"' :: '>' :: rest => some rest
    | _ => none
  else none

theorem matchAttrTag_rest_lt {pre s rest : List Char}
    (h : matchAttrTag pre s = some rest) : rest.length < s.length := by
  unfold matchAttrTag at h
  split at h
  · rename_i hpre
    split at h
    · rename_i r heq
      injection h with h1
      subst h1
      have hlen := congrArg List.length heq
      simp only [List.length_drop, List.length_cons] at hlen
      omega
    · exact absurd h (by simp)
  · exact absurd h (by simp)

/-- Fuel-driven body of the attribute-tag stripper. -/
def stripAttrTagF (pre : List Char) : Nat → List Char → List Char
  | _, [] => []
  | 0, s => s
  | f + 1, c :: t =>
    match matchAttrTag pre (c :: t) with
    | some rest => stripAttrTagF pre f rest
    | none => c :: stripAttrTagF pre f t

/-- `re.sub(pre ++ '[^\"]*\">', '', s)` as a scanner. -/
def stripAttrTag (pre s : List Char) : List Char := stripAttrTagF pre s.length s

theorem stripAttrTagF_congr (pre : List Char) :
    ∀ (L : Nat) (s : List Char), s.length ≤ L → ∀ n m : Nat,
      s.length ≤ n → s.length ≤ m → stripAttrTagF pre n s = stripAttrTagF pre m s := by
  intro L
  induction L with
  | zero =>
    intro s hs n m _ _
    have : s = [] := List.length_eq_zero.1 (Nat.le_zero.1 hs)
    subst this
    cases n <;> cases m <;> rfl
  | succ L ih =>
    intro s hs n m hn hm
    cases s with
    | nil => cases n <;> cases m <;> rfl
    | cons c t =>
      cases n with
      | zero => simp at hn
      | succ n =>
        cases m with
        | zero => simp at hm
        | succ m =>
          simp only [stripAttrTagF]
          cases hmt : matchAttrTag pre (c :: t) with
          | some rest =>
            have hlt := matchAttrTag_rest_lt hmt
            simp only [List.length_cons] at hs hn hm hlt
            exact ih rest (by omega) n m (by omega) (by omega)
          | none =>
            simp only [List.length_cons] at hs hn hm
            exact congrArg (c :: ·) (ih t (by omega) n m (by omega) (by omega))

theorem stripAttrTag_nil (pre : List Char) : stripAttrTag pre [] = [] := rfl

theorem stripAttrTag_cons (pre : List Char) (c : Char) (t : List Char) :
    stripAttrTag pre (c :: t)
      = match matchAttrTag pre (c :: t) with
        | some rest => stripAttrTag pre rest
        | none => c :: stripAttrTag pre t := by
  show stripAttrTagF pre (t.length + 1) (c :: t) = _
  simp only [stripAttrTagF]
  cases hmt : matchAttrTag pre (c :: t) with
  | some rest =>
    have hlt := matchAttrTag_rest_lt hmt
    simp only [List.length_cons] at hlt
    exact stripAttrTagF_congr pre rest.length rest le_rfl _ _ (by omega) le_rfl
  | none =>
    exact congrArg (c :: ·) (stripAttrTagF_congr pre t.length t le_rfl _ _ (by omega) le_rfl)

/-- Try to match `</?[biuch]>` at the start of `s`. -/
def matchSimpleTag (s : List Char) : Option (List Char) :=
  match s with
  | '<' :: '/' :: x :: '>' :: rest => if biuch x then some rest else none
  | '<' :: x :: '>' :: rest => if biuch x then some rest else none
  | _ => none

theorem matchSimpleTag_rest_lt {s rest : List Char}
    (h : matchSimpleTag s = some rest) : rest.length < s.length := by
  unfold matchSimpleTag at h
  split at h
  · split at h
    · injection h with h1
      subst h1
      simp only [List.length_cons]
      omega
    · exact absurd h (by simp)
  · split at h
    · injection h with h1
      subst h1
      simp only [List.length_cons]
      omega
    · exact absurd h (by simp)
  · exact absurd h (by simp)

/-- Fuel-driven body of the simple-tag stripper. -/
def stripSimpleTagsF : Nat → List Char → List Char
  | _, [] => []
  | 0, s => s
  | f + 1, c :: t =>
    match matchSimpleTag (c :: t) with
    | some rest => stripSimpleTagsF f rest
    | none => c :: stripSimpleTagsF f t

/-- `re.sub(r'<[/]?[biuch]>', '', s)` as a scanner. -/
def stripSimpleTags (s : List Char) : List Char := stripSimpleTagsF s.length s

theorem stripSimpleTagsF_congr :
    ∀ (L : Nat) (s : List Char), s.length ≤ L → ∀ n m : Nat,
      s.length ≤ n → s.length ≤ m → stripSimpleTagsF n s = stripSimpleTagsF m s := by
  intro L
  induction L with
  | zero =>
    intro s hs n m _ _
    have : s = [] := List.length_eq_zero.1 (Nat.le_zero.1 hs)
    subst this
    cases n <;> cases m <;> rfl
  | succ L ih =>
    intro s hs n m hn hm
    cases s with
    | nil => cases n <;> cases m <;> rfl
    | cons c t =>
      cases n with
      | zero => simp at hn
      | succ n =>
        cases m with
        | zero => simp at hm
        | succ m =>
          simp only [stripSimpleTagsF]
          cases hmt : matchSimpleTag (c :: t) with
          | some rest =>
            have hlt := matchSimpleTag_rest_lt hmt
            simp only [List.length_cons] at hs hn hm hlt
            exact ih rest (by omega) n m (by omega) (by omega)
          | none =>
            simp only [List.length_cons] at hs hn hm
            exact congrArg (c :: ·) (ih t (by omega) n m (by omega) (by omega))

theorem stripSimpleTags_nil : stripSimpleTags [] = [] := rfl

theorem stripSimpleTags_cons (c : Char) (t : List Char) :
    stripSimpleTags (c :: t)
      = match matchSimpleTag (c :: t) with
        | some rest => stripSimpleTags rest
        | none => c :: stripSimpleTags t := by
  show stripSimpleTagsF (t.length + 1) (c :: t) = _
  simp only [stripSimpleTagsF]
  cases hmt : matchSimpleTag (c :: t) with
  | some rest =>
    have hlt := matchSimpleTag_rest_lt hmt
    simp only [List.length_cons] at hlt
    exact stripSimpleTagsF_congr rest.length rest le_rfl _ _ (by omega) le_rfl
  | none =>
    exact congrArg (c :: ·) (stripSimpleTagsF_congr t.length t le_rfl _ _ (by omega) le_rfl)

/-- `.replace("&lt;", "<").replace("&gt;", ">").replace("&amp;", "&")`. -/
def unescapeEnt (s : List Char) : List Char :=
  replaceAll (toL "&amp;") ['&'] (replaceAll (toL "&gt;") ['>'] (replaceAll (toL "&lt;") ['<'] s))

/-- `TagFormatter._parse_and_extract_text`. -/
def parse_and_extract_text (s : List Char) : List Char :=
  unescapeEnt (stripSimpleTags (stripAttrTag (toL "<h col=\"") (stripAttrTag (toL "<c rgb=\"") s)))

/-- Fresh run style: a newly added run has no direct formatting. -/
def freshStyle : RunStyle :=
  { bold := none, italic := none, underline := none, color := none, colorType := none
    size := none, name := none, highlight := none, shading := none, styleId := none }

/-- `TagFormatter._apply_run_style` on a fresh run: the resulting font
attributes.  `colorType` records the resulting `font.color.type`
(`RGB` when an explicit rgb was written, `AUTO` when the explicit
automatic-color marker was emitted). -/
def applyRunStyle (st : RunStyle) (content : List Char) : RunStyle :=
  { name := if truthyS st.name then st.name else none
    size := if truthyN st.size then st.size else none
    color := if truthyS st.color then st.color else none
    colorType :=
      if truthyS st.color then some (toL "RGB (1)")
      else if st.colorType = some (toL "AUTO (101)") then some (toL "AUTO (101)")
      else none
    highlight := if truthyS st.highlight then st.highlight else none
    bold :=
      if containsSub (toL "<b>") content then some true
      else if truthyB st.bold then some true
      else none
    italic :=
      if containsSub (toL "<i>") content then some true
      else if truthyB st.italic then some true
      else none
    underline := if truthyB st.underline then st.underline else none
    styleId := if truthyS st.styleId then st.styleId else none
    shading := if truthyS st.shading then st.shading else none }

/-- Dict lookup `hyperlinks[run_idx]` (`None` when absent). -/
def lookupA (k : Nat) : List (Nat × List Char) → Option (List Char)
  | [] => none
  | (i, u) :: t => if i = k then some u else lookupA k t

/-- `TagFormatter.tags_to_paragraph`: the paragraph is cleared first
(`para.clear()`), so the prior runs are discarded; every matched span
whose index is in range and whose extracted text is non-empty becomes a
new run. -/
def tags_to_paragraph (_prior : List Run) (tagged : List Char)
    (styles : List RunStyle) (hyper : List (Nat × List Char)) : List Run :=
  (findSpans tagged).filterMap fun dc =>
    let idx := digitsVal dc.1
    if idx < styles.length then
      let clean := parse_and_extract_text dc.2
      if clean.isEmpty then none
      else
        some { text := clean
               style := applyRunStyle (styles.getD idx freshStyle) dc.2
               hyperlink := lookupA idx hyper }
    else none

/-! ## Translation engines (`src/core/engines/`)

The HTTP layer is a collaborator: one attempt is modelled as an
`Except Unit (Nat × List Char)` — either an exception (network error or
timeout) or a status code together with the decoded translation payload
(meaningful on status 200). -/

/-- `GoogleTranslator._send_request`: any exception or non-200 status
returns the input text unchanged. -/
def sendRequest (text : List Char) (resp : Except Unit (Nat × List Char)) : List Char :=
  match resp with
  | Except.error _ => text
  | Except.ok (status, payload) => if status = 200 then payload else text

/-- `[text[i:i+1500] for i in range(0, len(text), 1500)]`. -/
def chunks1500 : List Char → List (List Char)
  | [] => []
  | c :: t => (c :: t).take 1500 :: chunks1500 ((c :: t).drop 1500)
termination_by s => s.length
decreasing_by
  simp only [List.length_drop, List.length_cons]
  omega

/-- `GoogleTranslator.translate` with the HTTP attempt for each chunk
given by `resp`. -/
def googleTranslate (text : List Char) (resp : List Char → Except Unit (Nat × List Char)) :
    List Char :=
  if (pyStrip text).length < 2 then text
  else if text.length ≤ 1500 then sendRequest text (resp text)
  else ((chunks1500 text).map fun c => sendRequest c (resp c)).join

/-- `DeepLTranslator.translate`: on a non-200 status or an exception it
falls back to `GoogleTranslator().translate`. -/
def deeplTranslate (text : List Char) (resp : Except Unit (Nat × List Char))
    (googleResp : List Char → Except Unit (Nat × List Char)) : List Char :=
  if (pyStrip text).length < 2 then text
  else
    match resp with
    | Except.error _ => googleTranslate text googleResp
    | Except.ok (status, payload) =>
      if status = 200 then payload else googleTranslate text googleResp

/-! ## Paragraph orchestrator (`src/core/translator.py`) -/

/-- The `turkish_chars` list of `DocumentTranslator._has_turkish`. -/
def turkishDetectChars : List Char :=
  ['ğ', 'ü', 'ş', 'ı', 'ö', 'ç', 'İ', 'Ğ', 'Ü', 'Ş', 'Ö', 'Ç']

/-- The `turkish_words` list. -/
def turkishWords : List (List Char) :=
  [toL " ve ", toL " ile ", toL " bir ", toL " için ", toL " olan ", toL " olarak ", toL " veya ",
   toL " gibi ", toL " daha ", toL " en ", toL " çok ", toL " az ", toL " var ", toL " yok ",
   toL "evet", toL "hayır", toL "orta", toL "tam", toL "kriter", toL "ay", toL "hafta", toL "gün",
   toL "kolay", toL "zor", toL "hızlı", toL "yavaş", toL "düşük", toL "yüksek", toL "minimal",
   toL "sınırlı", toL "kapsamlı", toL "genel", toL "özel", toL "basit", toL "karmaşık",
   toL "karma", toL "otomatik", toL "her yerden", toL "koordine", toL "gerekli", toL "bulut",
   toL "birden fazla", toL "temel", toL "yok", toL "maliyetleri", toL "optimize", toL "edilir"]

/-- The `turkish_suffixes` list. -/
def turkishSuffixes : List (List Char) :=
  [toL "ları", toL "leri", toL "lar", toL "ler", toL "dır", toL "dir", toL "tır", toL "tir",
   toL "mış", toL "miş", toL "muş", toL "müş"]

/-- `DocumentTranslator._has_turkish`. -/
def hasTurkish (text : List Char) : Bool :=
  if (pyStrip text).length < 1 then false
  else
    text.any (fun c => turkishDetectChars.contains c) ||
    turkishWords.any (fun w => containsSub w (lowerStr text)) ||
    turkishSuffixes.any (fun sf => sf.isSuffixOf (lowerStr text))

/-- Whitespace placeholder ` [_WS_{n}_] ` (note the flanking single
spaces of the replacement; `n` is the length of the replaced space run). -/
def wsKey (n : Nat) : List Char :=
  (' ' :: '[' :: '_' :: 'W' :: 'S' :: '_' :: natToDigits n) ++ ['_', ']', ' ']

/-- Fuel-driven body of the whitespace-run substitution. -/
def wsSubF : Nat → List Char → List Char
  | _, [] => []
  | 0, s => s
  | f + 1, c :: t =>
    if c = ' ' then
      if 2 ≤ 1 + (t.takeWhile (· = ' ')).length then
        wsKey (1 + (t.takeWhile (· = ' ')).length) ++ wsSubF f (t.dropWhile (· = ' '))
      else c :: wsSubF f t
    else c :: wsSubF f t

/-- `re.sub(r'( {2,})', lambda m: f' [_WS_{len(m.group(1))}_] ', text)`. -/
def wsSub (s : List Char) : List Char := wsSubF s.length s

theorem wsSubF_congr :
    ∀ (L : Nat) (s : List Char), s.length ≤ L → ∀ n m : Nat,
      s.length ≤ n → s.length ≤ m → wsSubF n s = wsSubF m s := by
  intro L
  induction L with
  | zero =>
    intro s hs n m _ _
    have : s = [] := List.length_eq_zero.1 (Nat.le_zero.1 hs)
    subst this
    cases n <;> cases m <;> rfl
  | succ L ih =>
    intro s hs n m hn hm
    cases s with
    | nil => cases n <;> cases m <;> rfl
    | cons c t =>
      cases n with
      | zero => simp at hn
      | succ n =>
        cases m with
        | zero => simp at hm
        | succ m =>
          have hdw : (t.dropWhile fun c => decide (c = ' ')).length ≤ t.length :=
            (List.dropWhile_sublist _).length_le
          simp only [wsSubF, List.length_cons] at hs hn hm ⊢
          by_cases hc : c = ' '
          · rw [if_pos hc, if_pos hc]
            by_cases h2 : 2 ≤ 1 + (t.takeWhile (· = ' ')).length
            · rw [if_pos h2, if_pos h2]
              exact congrArg (fun x => wsKey (1 + (t.takeWhile (· = ' ')).length) ++ x)
                (ih (t.dropWhile (· = ' ')) (by omega) n m (by omega) (by omega))
            · rw [if_neg h2, if_neg h2]
              exact congrArg (c :: ·) (ih t (by omega) n m (by omega) (by omega))
          · rw [if_neg hc, if_neg hc]
            exact congrArg (c :: ·) (ih t (by omega) n m (by omega) (by omega))

theorem wsSub_nil : wsSub [] = [] := rfl

theorem wsSub_cons (c : Char) (t : List Char) :
    wsSub (c :: t)
      = if c = ' ' then
          if 2 ≤ 1 + (t.takeWhile (· = ' ')).length then
            wsKey (1 + (t.takeWhile (· = ' ')).length) ++ wsSub (t.dropWhile (· = ' '))
          else c :: wsSub t
        else c :: wsSub t := by
  show wsSubF (t.length + 1) (c :: t) = _
  have hdw : (t.dropWhile fun c => decide (c = ' ')).length ≤ t.length :=
    (List.dropWhile_sublist _).length_le
  simp only [wsSubF]
  by_cases hc : c = ' '
  · rw [if_pos hc, if_pos hc]
    by_cases h2 : 2 ≤ 1 + (t.takeWhile (· = ' ')).length
    · rw [if_pos h2, if_pos h2]
      exact congrArg (fun x => wsKey (1 + (t.takeWhile (· = ' ')).length) ++ x)
        (wsSubF_congr (t.dropWhile (· = ' ')).length _ le_rfl _ _ (by omega) le_rfl)
    · rw [if_neg h2, if_neg h2]
      exact congrArg (c :: ·) (wsSubF_congr t.length t le_rfl _ _ (by omega) le_rfl)
  · rw [if_neg hc, if_neg hc]
    exact congrArg (c :: ·) (wsSubF_congr t.length t le_rfl _ _ (by omega) le_rfl)

/-- The whitespace-protection stage (applied only when a double space is
present, as in the source). -/
def wsProtect (s : List Char) : List Char :=
  if containsSub [' ', ' '] s then wsSub s else s

/-- Structural-tag placeholder key `[_TG_{n}_]`. -/
def tgKey (n : Nat) : List Char :=
  ('[' :: '_' :: 'T' :: 'G' :: '_' :: natToDigits n) ++ ['_', ']']

/-- Try to match the tag pattern `\[/?R\d+\]|<[^>]+>` at the start of `s`:
returns the matched tag text and the remainder. -/
def matchTag (s : List Char) : Option (List Char × List Char) :=
  match s with
  | '[' :: s1 =>
    match (if s1.head? = some '/' then s1.tail else s1) with
    | 'R' :: s3 =>
      if (s3.takeWhile isDigitCh).isEmpty then none
      else
        match s3.drop ((s3.takeWhile isDigitCh).length) with
        | ']' :: rest =>
          some ((if s1.head? = some '/' then toL "[/R" else toL "[R") ++
            s3.takeWhile isDigitCh ++ [']'], rest)
        | _ => none
    | _ => none
  | '<' :: s1 =>
    if (s1.takeWhile (· ≠ '>')).isEmpty then none
    else
      match s1.drop ((s1.takeWhile (· ≠ '>')).length) with
      | '>' :: rest => some ('<' :: s1.takeWhile (· ≠ '>') ++ ['>'], rest)
      | _ => none
  | _ => none

theorem matchTag_rest_lt {s tag rest : List Char}
    (h : matchTag s = some (tag, rest)) : rest.length < s.length := by
  unfold matchTag at h
  split at h
  · rename_i s1
    split at h
    · rename_i s3 heq3
      split at h
      · exact absurd h (by simp)
      · split at h
        · rename_i r heq
          injection h with h1
          injection h1 with h1 h2
          subst h2
          have hlen := congrArg List.length heq
          simp only [List.length_drop, List.length_cons] at hlen
          have hlen3 := congrArg List.length heq3
          by_cases hh : s1.head? = some '/'
          · rw [if_pos hh] at hlen3
            have ht : s1.tail.length ≤ s1.length := by
              cases s1 <;> simp
            simp only [List.length_cons] at hlen3 ⊢
            omega
          · rw [if_neg hh] at hlen3
            simp only [List.length_cons] at hlen3 ⊢
            omega
        · exact absurd h (by simp)
    · exact absurd h (by simp)
  · rename_i s1
    split at h
    · exact absurd h (by simp)
    · split at h
      · rename_i r heq
        injection h with h1
        injection h1 with h1 h2
        subst h2
        have hlen := congrArg List.length heq
        simp only [List.length_drop, List.length_cons] at hlen ⊢
        omega
      · exact absurd h (by simp)
  · exact absurd h (by simp)

/-- Fuel-driven body of the tag-protection scanner. -/
def protectTagsGoF : Nat → List Char → Nat → List (List Char × List Char) →
    List Char × List (List Char × List Char)
  | _, [], _, acc => ([], acc)
  | 0, s, _, acc => (s, acc)
  | f + 1, c :: t, n, acc =>
    match matchTag (c :: t) with
    | some (tag, rest) =>
      ((tgKey n ++ (protectTagsGoF f rest (n + 1) (acc ++ [(tgKey n, tag)])).1),
       (protectTagsGoF f rest (n + 1) (acc ++ [(tgKey n, tag)])).2)
    | none =>
      (c :: (protectTagsGoF f t n acc).1, (protectTagsGoF f t n acc).2)

/-- The tag-protection stage (`re.sub(tag_pattern, protect_tag, text)`
with the stateful counter): returns the masked text and the
`tag_placeholders` mapping in insertion order. -/
def protectTagsGo (s : List Char) (n : Nat) (acc : List (List Char × List Char)) :
    List Char × List (List Char × List Char) :=
  protectTagsGoF s.length s n acc

theorem protectTagsGoF_congr :
    ∀ (L : Nat) (s : List Char), s.length ≤ L →
      ∀ (k : Nat) (acc : List (List Char × List Char)) (n m : Nat),
      s.length ≤ n → s.length ≤ m →
      protectTagsGoF n s k acc = protectTagsGoF m s k acc := by
  intro L
  induction L with
  | zero =>
    intro s hs k acc n m _ _
    have : s = [] := List.length_eq_zero.1 (Nat.le_zero.1 hs)
    subst this
    cases n <;> cases m <;> rfl
  | succ L ih =>
    intro s hs k acc n m hn hm
    cases s with
    | nil => cases n <;> cases m <;> rfl
    | cons c t =>
      cases n with
      | zero => simp at hn
      | succ n =>
        cases m with
        | zero => simp at hm
        | succ m =>
          simp only [protectTagsGoF, List.length_cons] at hs hn hm ⊢
          split
          · rename_i tag rest hmt
            have h1 := matchTag_rest_lt hmt
            simp only [List.length_cons] at h1
            rw [ih rest (by omega) (k + 1) (acc ++ [(tgKey k, tag)]) n m (by omega) (by omega)]
          · rw [ih t (by omega) k acc n m (by omega) (by omega)]

theorem protectTagsGo_nil (n : Nat) (acc : List (List Char × List Char)) :
    protectTagsGo [] n acc = ([], acc) := rfl

theorem protectTagsGo_cons (c : Char) (t : List Char) (n : Nat)
    (acc : List (List Char × List Char)) :
    protectTagsGo (c :: t) n acc
      = match matchTag (c :: t) with
        | some (tag, rest) =>
          ((tgKey n ++ (protectTagsGo rest (n + 1) (acc ++ [(tgKey n, tag)])).1),
           (protectTagsGo rest (n + 1) (acc ++ [(tgKey n, tag)])).2)
        | none =>
          (c :: (protectTagsGo t n acc).1, (protectTagsGo t n acc).2) := by
  show protectTagsGoF (t.length + 1) (c :: t) n acc = _
  simp only [protectTagsGoF]
  split
  · rename_i tag rest hmt
    have h1 := matchTag_rest_lt hmt
    simp only [List.length_cons] at h1
    rw [protectTagsGoF_congr rest.length rest le_rfl (n + 1) (acc ++ [(tgKey n, tag)])
      t.length rest.length (by omega) le_rfl]
    rfl
  · rfl

def protectTags (s : List Char) : List Char × List (List Char × List Char) :=
  protectTagsGo s 0 []

/-- Tag restoration: `for key, value in tag_placeholders.items():
translated = translated.replace(key, value)`. -/
def restoreTags (text : List Char) (ph : List (List Char × List Char)) : List Char :=
  ph.foldl (fun acc kv => replaceAll kv.1 kv.2 acc) text

/-- Drop leading whitespace (trailing `\s*` of the placeholder pattern). -/
def dropWS (x : List Char) : List Char := x.drop ((x.takeWhile isSpaceCh).length)

/-- The core of the `\s*\[_WS_(\d+)_\]\s*` match, applied after the
leading whitespace has been dropped. -/
def matchWSCore (s1 : List Char) : Option (Nat × List Char) :=
  if (toL "[_WS_").isPrefixOf s1 then
    if ((s1.drop 5).takeWhile isDigitCh).isEmpty then none
    else
      if (toL "_]").isPrefixOf
          ((s1.drop 5).drop (((s1.drop 5).takeWhile isDigitCh).length)) then
        some (digitsVal ((s1.drop 5).takeWhile isDigitCh),
          dropWS (((s1.drop 5).drop (((s1.drop 5).takeWhile isDigitCh).length)).drop 2))
      else none
  else none

/-- Try to match `\s*\[_WS_(\d+)_\]\s*` at the start of `s`: returns the
recorded run length and the remainder after the trailing whitespace. -/
def matchWSTok (s : List Char) : Option (Nat × List Char) :=
  matchWSCore (dropWS s)

theorem dropWS_length_le (x : List Char) : (dropWS x).length ≤ x.length := by
  simp only [dropWS, List.length_drop]
  omega

theorem matchWSCore_rest_lt {s1 : List Char} {n : Nat} {rest : List Char}
    (h : matchWSCore s1 = some (n, rest)) : rest.length < s1.length := by
  unfold matchWSCore at h
  split at h
  · rename_i hpre
    split at h
    · exact absurd h (by simp)
    · split at h
      · rename_i hpre2
        injection h with h1
        injection h1 with h1 h2
        subst h2
        have h5 : 5 ≤ s1.length := by
          have := (isPrefixOf_iff.1 hpre).length_le
          simpa [toL] using this
        have hrest := dropWS_length_le
          (((s1.drop 5).drop (((s1.drop 5).takeWhile isDigitCh).length)).drop 2)
        simp only [List.length_drop] at hrest
        omega
      · exact absurd h (by simp)
  · exact absurd h (by simp)

theorem matchWSTok_rest_lt {s : List Char} {n : Nat} {rest : List Char}
    (h : matchWSTok s = some (n, rest)) : rest.length < s.length := by
  have h1 := matchWSCore_rest_lt h
  have h2 := dropWS_length_le s
  omega

/-- `re.sub(r'\s*\[_WS_(\d+)_\]\s*', lambda m: ' ' * int(m.group(1)), s)`. -/
def wsRestore : List Char → List Char
  | [] => []
  | c :: t =>
    match hm : matchWSTok (c :: t) with
    | some (n, rest) => List.replicate n ' ' ++ wsRestore rest
    | none => c :: wsRestore t
termination_by s => s.length
decreasing_by
  · exact matchWSTok_rest_lt hm
  · simp

/-- Concatenated paragraph text (`para.text`). -/
def paraText (runs : List Run) : List Char := (runs.map Run.text).join

/-- The masked text handed to the translation engine for one paragraph:
whitespace layer, then structural-tag layer, then glossary layer. -/
def maskedTextOf (para : List Run) (protectedList : List (List Char))
    (forcedList : List (List Char × List Char)) : List Char :=
  (protect_text protectedList forcedList
    (protectTags (wsProtect (paragraph_to_tagged_text para).1)).1).1

/-- `DocumentTranslator._translate_paragraph`: returns the paragraph's
runs after orchestration together with the boolean the method returns. -/
def translateParagraph (para : List Run) (protectedList : List (List Char))
    (forcedList : List (List Char × List Char))
    (translateFn : List Char → List Char) : List Run × Bool :=
  let originalText := paraText para
  if (pyStrip originalText).length < 2 then (para, false)
  else if !hasTurkish originalText then (para, false)
  else
    let enc := paragraph_to_tagged_text para
    if (pyStrip enc.1).length < 2 then (para, false)
    else
      let protectedText := wsProtect enc.1
      let tg := protectTags protectedText
      let masked := protect_text protectedList forcedList tg.1
      let translatedMasked := translateFn masked.1
      if (pyStrip translatedMasked).length < 1 then (para, false)
      else
        let t1 := restore_text translatedMasked masked.2
        let t2 := restoreTags t1 tg.2
        let t3 := wsRestore t2
        let t4 := fix_concatenation_errors t3
        if (pyStrip t4).length < 1 then (para, false)
        else if t4 = enc.1 then (para, false)
        else (tags_to_paragraph para t4 enc.2.1 enc.2.2, true)

/-! ## Supporting lemmas: chunking -/

theorem chunks1500_join_aux :
    ∀ (n : Nat) (s : List Char), s.length ≤ n → (chunks1500 s).join = s := by
  intro n
  induction n with
  | zero =>
    intro s hs
    have hnil : s = [] := List.length_eq_zero.1 (Nat.le_zero.1 hs)
    subst hnil
    simp [chunks1500]
  | succ n ih =>
    intro s hs
    cases s with
    | nil => simp [chunks1500]
    | cons c t =>
      rw [chunks1500]
      have ihx := ih ((c :: t).drop 1500)
        (by simp only [List.length_drop, List.length_cons] at hs ⊢; omega)
      simp only [List.join, List.flatten_cons] at ihx ⊢
      rw [ihx]
      exact List.take_append_drop 1500 (c :: t)

theorem chunks1500_join (s : List Char) : (chunks1500 s).join = s :=
  chunks1500_join_aux s.length s le_rfl

/-! ## Claim theorems -/

/-- A failed transport attempt: an exception (network error / timeout) or
a non-2xx status code. -/
def transportFails (r : Except Unit (Nat × List Char)) : Prop :=
  r = Except.error () ∨ ∃ st p, r = Except.ok (st, p) ∧ st ≠ 200

/-- C8: a transport failure never propagates: on an exception or non-200
status (including 429 and 400) `GoogleTranslator._send_request` returns
the input chunk verbatim, `GoogleTranslator.translate` therefore returns
the whole input verbatim when every chunk attempt fails, and
`DeepLTranslator.translate` falls back to the Google engine on a non-200
status or exception instead of raising. -/
theorem C8_transport_failure_contained :
    (∀ text r, transportFails r → sendRequest text r = text) ∧
    (∀ text oracle, (∀ c, transportFails (oracle c)) → googleTranslate text oracle = text) ∧
    (∀ text r goracle, transportFails r →
      deeplTranslate text r goracle = googleTranslate text goracle) := by
  have hsend : ∀ (text : List Char) r, transportFails r → sendRequest text r = text := by
    intro text r hr
    rcases hr with rfl | ⟨st, p, rfl, hst⟩
    · rfl
    · simp [sendRequest, hst]
  refine ⟨hsend, ?_, ?_⟩
  · intro text oracle h
    unfold googleTranslate
    split
    · rfl
    · split
      · exact hsend text (oracle text) (h text)
      · have hmap : ((chunks1500 text).map fun c => sendRequest c (oracle c))
            = (chunks1500 text).map id := by
          apply List.map_congr_left
          intro c _
          exact hsend c (oracle c) (h c)
        rw [hmap, List.map_id, chunks1500_join]
  · intro text r goracle hr
    unfold deeplTranslate
    split
    · rename_i hlt
      unfold googleTranslate
      rw [if_pos hlt]
    · rcases hr with rfl | ⟨st, p, rfl, hst⟩
      · rfl
      · simp [hst]

/-- Witness for C8 at concrete inputs: a network exception on a chunk, a
whole-text translation where every attempt raises, and a DeepL call
answered with status 429. -/
theorem C8_transport_failure_contained_witness :
    sendRequest (toL "abc") (Except.error ()) = toL "abc" ∧
    googleTranslate (toL "merhaba") (fun _ => Except.error ()) = toL "merhaba" ∧
    deeplTranslate (toL "abcd") (Except.ok (429, toL "junk")) (fun _ => Except.error ())
      = googleTranslate (toL "abcd") (fun _ => Except.error ()) :=
  ⟨C8_transport_failure_contained.1 _ _ (Or.inl rfl),
   C8_transport_failure_contained.2.1 _ _ (fun _ => Or.inl rfl),
   C8_transport_failure_contained.2.2 _ _ _ (Or.inr ⟨429, toL "junk", rfl, by decide⟩)⟩

/-- C2: if the translation function returns an empty or whitespace-only
string for the masked input of a paragraph, the whole paragraph
translation is abandoned: the runs after orchestration are exactly the
runs before, with no mutation. -/
theorem C2_empty_translation_safety (para : List Run) (P : List (List Char))
    (F : List (List Char × List Char)) (fn : List Char → List Char)
    (h : pyStrip (fn (maskedTextOf para P F)) = []) :
    (translateParagraph para P F fn).1 = para := by
  unfold maskedTextOf at h
  simp only [translateParagraph]
  split
  · rfl
  · split
    · rfl
    · split
      · rfl
      · rw [h]
        simp

/-- Witness for C2: a one-run Turkish paragraph and a translate stub that
returns the empty string. -/
theorem C2_empty_translation_safety_witness :
    (translateParagraph
      [{ text := toL "Kriter çok önemli", style := freshStyle, hyperlink := none }]
      [] [] (fun _ => [])).1
      = [{ text := toL "Kriter çok önemli", style := freshStyle, hyperlink := none }] :=
  C2_empty_translation_safety _ _ _ _ (by decide)

/-- C10 (amended): `tags_to_paragraph` clears the paragraph first, so when
the tagged text has no matching span-marker pair, or every matched span
has an out-of-range index or inner text that is empty after tag
stripping, the paragraph ends with zero runs regardless of its prior
content. -/
theorem C10_decode_clears_paragraph (prior : List Run) (tagged : List Char)
    (styles : List RunStyle) (hyper : List (Nat × List Char))
    (h : ∀ dc ∈ findSpans tagged,
      styles.length ≤ digitsVal dc.1 ∨ parse_and_extract_text dc.2 = []) :
    tags_to_paragraph prior tagged styles hyper = [] := by
  unfold tags_to_paragraph
  rw [List.filterMap_eq_nil]
  intro dc hdc
  rcases h dc hdc with hrange | hempty
  · simp only [ite_eq_right_iff]
    intro hlt
    omega
  · simp [hempty]

/-- Witness for C10 at concrete inputs: prior content, one span with an
out-of-range index and one whose inner text is empty after stripping. -/
theorem C10_decode_clears_paragraph_witness :
    tags_to_paragraph [{ text := toL "old", style := freshStyle, hyperlink := none }]
      (toL "[R7]x[/R7][R0]<b></b>[/R0]") [freshStyle] [] = [] :=
  C10_decode_clears_paragraph _ _ _ _ (by decide)

/-- Counterexample to C10 as stated: a span whose inner text merely
*strips* to empty (a single space) is not skipped — decode creates a run
holding that space, so the paragraph does not end with zero runs. -/
theorem C10_counterexample :
    pyStrip (parse_and_extract_text (toL " ")) = [] ∧
    tags_to_paragraph [] (toL "[R0] [/R0]") [freshStyle] [] ≠ [] := by
  decide

/-- One encoded span for the run `p.2` at index `p.1`. -/
def spanOf (p : Nat × Run) : List Char :=
  openMark p.1 ++ wrapText p.2.style p.2.text ++ closeMark p.1

/-- The hyperlink entry for the run `p.2` at index `p.1` (registered only
when the URL is truthy). -/
def hyperOf (p : Nat × Run) : Option (Nat × List Char) :=
  match p.2.hyperlink with
  | some u => if u.isEmpty then none else some (p.1, u)
  | none => none

theorem encodeAux_spec (runs : List Run) : ∀ k : Nat,
    encodeAux k runs
      = ((((runs.filter fun r => !r.text.isEmpty).enumFrom k).map spanOf).join,
         (runs.filter fun r => !r.text.isEmpty).map (fun r => captureStyle r.style),
         ((runs.filter fun r => !r.text.isEmpty).enumFrom k).filterMap hyperOf) := by
  induction runs with
  | nil => intro k; rfl
  | cons r rs ih =>
    intro k
    by_cases he : r.text.isEmpty
    · rw [encodeAux, if_pos he, List.filter_cons_of_neg (by simp [he])]
      exact ih k
    · rw [encodeAux, if_neg he, List.filter_cons_of_pos (by simp [he]), ih (k + 1)]
      simp only [List.enumFrom_cons, List.map_cons, List.join, List.flatten_cons,
        List.filterMap_cons]
      refine congrArg₂ Prod.mk ?_ (congrArg₂ Prod.mk rfl ?_)
      · simp [spanOf, List.append_assoc]
      · cases hr : r.hyperlink with
        | none => simp [hyperOf, hr]
        | some u =>
          by_cases hu : u.isEmpty
          · simp [hyperOf, hr, hu]
          · simp [hyperOf, hr, hu]

/-- C9 (amended): encoding skips exactly the runs whose text is empty
(`if not text`): the tagged fragment is the concatenation of one span per
remaining run, with indices assigned `0..N-1` consecutively in document
order; the style list captures exactly the remaining runs' styles in
order; and the hyperlink map holds exactly the remaining runs with a
truthy URL, keyed by those indices. -/
theorem C9_encode_skips_empty_runs (runs : List Run) :
    ((paragraph_to_tagged_text runs).1
      = ((((runs.filter fun r => !r.text.isEmpty).enumFrom 0).map spanOf).join)) ∧
    ((paragraph_to_tagged_text runs).2.1
      = (runs.filter fun r => !r.text.isEmpty).map (fun r => captureStyle r.style)) ∧
    ((paragraph_to_tagged_text runs).2.2
      = ((runs.filter fun r => !r.text.isEmpty).enumFrom 0).filterMap hyperOf) := by
  have h := encodeAux_spec runs 0
  unfold paragraph_to_tagged_text
  rw [h]
  exact ⟨rfl, rfl, rfl⟩

theorem mem_insLenDesc {α : Type} (f : α → Nat) (x : α) :
    ∀ (l : List α) (z : α), z ∈ insLenDesc f x l → z = x ∨ z ∈ l := by
  intro l
  induction l with
  | nil =>
    intro z hz
    simp only [insLenDesc, List.mem_singleton] at hz
    exact Or.inl hz
  | cons y ys ih =>
    intro z hz
    rw [insLenDesc] at hz
    split at hz
    · rcases List.mem_cons.1 hz with rfl | hz2
      · exact Or.inl rfl
      · exact Or.inr hz2
    · rcases List.mem_cons.1 hz with rfl | hz2
      · exact Or.inr (List.mem_cons_self _ _)
      · rcases ih z hz2 with rfl | hz3
        · exact Or.inl rfl
        · exact Or.inr (List.mem_cons_of_mem _ hz3)

theorem pairwise_insLenDesc {α : Type} (f : α → Nat) (x : α) :
    ∀ l : List α, l.Pairwise (fun a b => f b ≤ f a) →
      (insLenDesc f x l).Pairwise (fun a b => f b ≤ f a) := by
  intro l
  induction l with
  | nil => intro _; simp [insLenDesc]
  | cons y ys ih =>
    intro hp
    rw [List.pairwise_cons] at hp
    rw [insLenDesc]
    split
    · rename_i hle
      rw [List.pairwise_cons]
      constructor
      · intro z hz
        rcases List.mem_cons.1 hz with rfl | hz2
        · exact hle
        · exact le_trans (hp.1 z hz2) hle
      · exact List.pairwise_cons.2 hp
    · rename_i hgt
      rw [List.pairwise_cons]
      constructor
      · intro z hz
        rcases mem_insLenDesc f x ys z hz with rfl | hz2
        · omega
        · exact hp.1 z hz2
      · exact ih hp.2

theorem pairwise_sortLenDesc {α : Type} (f : α → Nat) :
    ∀ l : List α, (sortLenDesc f l).Pairwise (fun a b => f b ≤ f a) := by
  intro l
  induction l with
  | nil => simp [sortLenDesc]
  | cons x xs ih => exact pairwise_insLenDesc f x _ ih

/-- C4: glossary masking processes each term list longest-source-first —
both the forced and the protected lists are sorted by descending source
length before matching — and on the concrete example the two-word forced
term "ERP Sistemi" is masked before the protected term "ERP", leaving no
dangling unmasked occurrence of "ERP". -/
theorem C4_longest_match_first :
    (∀ l : List (List Char × List Char),
      (sortLenDesc (fun kv => kv.1.length) l).Pairwise (fun a b => b.1.length ≤ a.1.length)) ∧
    (∀ l : List (List Char),
      (sortLenDesc List.length l).Pairwise (fun a b => b.length ≤ a.length)) ∧
    (protect_text [toL "ERP"] [(toL "ERP Sistemi", toL "ERP System")]
        (toL "ERP Sistemi kuruldu")
      = (toL "[_F0_] kuruldu", [(toL "[_F0_]", toL "ERP System")])) ∧
    containsSub (toL "ERP")
      (protect_text [toL "ERP"] [(toL "ERP Sistemi", toL "ERP System")]
        (toL "ERP Sistemi kuruldu")).1 = false := by
  refine ⟨?_, ?_, by decide, by decide⟩
  · intro l; exact pairwise_sortLenDesc _ l
  · intro l; exact pairwise_sortLenDesc _ l

/-- The character just before position `i` of `text` (`none` at the
start). -/
def prevCh (text : List Char) (i : Nat) : Option Char :=
  if i = 0 then none else (text.drop (i - 1)).head?

/-- Declarative, position-quantified matching: some position of `text`
carries a word-boundary-anchored, case-insensitive occurrence of
`term`. -/
def wbOccurs (term text : List Char) : Bool :=
  (List.range (text.length + 1)).any fun i => wbMatchAt term (prevCh text i) (text.drop i)

theorem searchWBGo_to_occurs (term : List Char) :
    ∀ (s a : List Char),
      searchWBGo term (prevCh (a ++ s) a.length) s = true → wbOccurs term (a ++ s) = true := by
  intro s
  induction s with
  | nil => intro a h; simp [searchWBGo] at h
  | cons c t ih =>
    intro a h
    rw [searchWBGo, Bool.or_eq_true] at h
    rcases h with hm | hrec
    · rw [wbOccurs, List.any_eq_true]
      refine ⟨a.length, List.mem_range.2 ?_, ?_⟩
      · simp only [List.length_append, List.length_cons]
        omega
      · rw [List.drop_left]
        exact hm
    · have hprev : prevCh ((a ++ [c]) ++ t) (a ++ [c]).length = some c := by
        rw [prevCh, if_neg (by simp)]
        have : (a ++ [c]).length - 1 = a.length := by simp
        rw [this, List.append_assoc]
        simp only [List.singleton_append, List.drop_left]
        rfl
      have := ih (a ++ [c]) (by rw [hprev]; exact hrec)
      rwa [List.append_assoc, List.singleton_append] at this

/-- C5: glossary matching is whole-word (word-boundary anchored) and
case-insensitive: a text with no word-bounded case-insensitive occurrence
of the term is left untouched with no placeholder; in particular, with
forced term "Orta" → "Medium", "Ortam" masks nothing, while the
lower-case whole word "orta" does match. -/
theorem C5_whole_word_case_insensitive :
    (∀ term repl text : List Char, wbOccurs term text = false →
      protect_text [] [(term, repl)] text = (text, [])) ∧
    (protect_text [] [(toL "Orta", toL "Medium")] (toL "Ortam") = (toL "Ortam", [])) ∧
    (protect_text [] [(toL "Orta", toL "Medium")] (toL "orta iyi")
      = (toL "[_F0_] iyi", [(toL "[_F0_]", toL "Medium")])) := by
  refine ⟨?_, by decide, by decide⟩
  intro term repl text h
  have hsearch : searchWB term text = false := by
    by_contra hx
    rw [Bool.not_eq_false] at hx
    have hx' : searchWBGo term (prevCh ([] ++ text) ([] : List Char).length) text = true := by
      simpa [prevCh, searchWB] using hx
    have := searchWBGo_to_occurs term text [] hx'
    rw [List.nil_append] at this
    rw [this] at h
    exact absurd h (by decide)
  unfold protect_text
  simp [sortLenDesc, insLenDesc, protectLoopF, protectLoopP, hsearch]

/-- Witness for C5's general clause: "Ortam" has no word-bounded
occurrence of "Orta". -/
theorem C5_whole_word_case_insensitive_witness :
    protect_text [] [(toL "Orta", toL "Medium")] (toL "Ortam") = (toL "Ortam", []) :=
  C5_whole_word_case_insensitive.1 _ _ _ (by decide)

theorem fKey_injective : Function.Injective fKey := by
  intro i j h
  simp only [fKey, List.cons_append, List.cons.injEq, true_and] at h
  exact natToDigits_injective (List.append_cancel_right h)

theorem pKey_injective : Function.Injective pKey := by
  intro i j h
  simp only [pKey, List.cons_append, List.cons.injEq, true_and] at h
  exact natToDigits_injective (List.append_cancel_right h)

theorem tgKey_injective : Function.Injective tgKey := by
  intro i j h
  simp only [tgKey, List.cons_append, List.cons.injEq, true_and] at h
  exact natToDigits_injective (List.append_cancel_right h)

theorem fKey_ne_pKey (i j : Nat) : fKey i ≠ pKey j := by
  intro h
  simp [fKey, pKey, List.cons_append] at h

theorem tgKey_ne_fKey (i j : Nat) : tgKey i ≠ fKey j := by
  intro h
  simp [tgKey, fKey, List.cons_append] at h

theorem tgKey_ne_pKey (i j : Nat) : tgKey i ≠ pKey j := by
  intro h
  simp [tgKey, pKey, List.cons_append] at h

theorem protectLoopF_keys :
    ∀ (terms : List (List Char × List Char)) (text : List Char)
      (acc : List (List Char × List Char)),
      ∃ m, (protectLoopF terms text acc).2.map Prod.fst
        = acc.map Prod.fst ++ (List.range' acc.length m).map fKey := by
  intro terms
  induction terms with
  | nil => intro text acc; exact ⟨0, by simp [protectLoopF]⟩
  | cons e rest ih =>
    intro text acc
    obtain ⟨src, tgt⟩ := e
    rw [protectLoopF]
    split
    · obtain ⟨m, hm⟩ := ih (subWB src (fKey acc.length) text) (acc ++ [(fKey acc.length, tgt)])
      refine ⟨m + 1, ?_⟩
      rw [hm]
      simp only [List.map_append, List.map_cons, List.map_nil, List.length_append,
        List.length_cons, List.length_nil, List.range'_succ, List.append_assoc]
      rfl
    · exact ih text acc

theorem protectLoopP_keys :
    ∀ (terms : List (List Char)) (text : List Char) (acc : List (List Char × List Char)),
      ∃ m, (protectLoopP terms text acc).2.map Prod.fst
        = acc.map Prod.fst ++ (List.range' acc.length m).map pKey := by
  intro terms
  induction terms with
  | nil => intro text acc; exact ⟨0, by simp [protectLoopP]⟩
  | cons term rest ih =>
    intro text acc
    rw [protectLoopP]
    split
    · obtain ⟨m, hm⟩ := ih (subWB term (pKey acc.length) text) (acc ++ [(pKey acc.length, term)])
      refine ⟨m + 1, ?_⟩
      rw [hm]
      simp only [List.map_append, List.map_cons, List.map_nil, List.length_append,
        List.length_cons, List.length_nil, List.range'_succ, List.append_assoc]
      rfl
    · exact ih text acc

theorem protect_text_keys (P : List (List Char)) (F : List (List Char × List Char))
    (text : List Char) :
    ∃ a b, (protect_text P F text).2.map Prod.fst
      = (List.range' 0 a).map fKey ++ (List.range' a b).map pKey := by
  unfold protect_text
  obtain ⟨a, ha⟩ := protectLoopF_keys (sortLenDesc (fun kv => kv.1.length) F) text []
  obtain ⟨b, hb⟩ := protectLoopP_keys (sortLenDesc List.length P)
    (protectLoopF (sortLenDesc (fun kv => kv.1.length) F) text []).1
    (protectLoopF (sortLenDesc (fun kv => kv.1.length) F) text []).2
  refine ⟨a, b, ?_⟩
  simp only [List.map_nil, List.length_nil, List.nil_append] at ha
  have hlen : (protectLoopF (sortLenDesc (fun kv => kv.1.length) F) text []).2.length = a := by
    have := congrArg List.length ha
    simpa using this
  rw [hb, ha, hlen]

theorem protectTagsGo_keys :
    ∀ (L : Nat) (s : List Char), s.length ≤ L →
      ∀ (n : Nat) (acc : List (List Char × List Char)),
      ∃ m, (protectTagsGo s n acc).2.map Prod.fst
        = acc.map Prod.fst ++ (List.range' n m).map tgKey := by
  intro L
  induction L with
  | zero =>
    intro s hs n acc
    have : s = [] := List.length_eq_zero.1 (Nat.le_zero.1 hs)
    subst this
    exact ⟨0, by simp [protectTagsGo_nil]⟩
  | succ L ih =>
    intro s hs n acc
    cases s with
    | nil => exact ⟨0, by simp [protectTagsGo_nil]⟩
    | cons c t =>
      rw [protectTagsGo_cons]
      split
      · rename_i tag rest hmt
        have h1 := matchTag_rest_lt hmt
        simp only [List.length_cons] at hs h1
        obtain ⟨m, hm⟩ := ih rest (by omega) (n + 1) (acc ++ [(tgKey n, tag)])
        refine ⟨m + 1, ?_⟩
        rw [hm]
        simp only [List.map_append, List.map_cons, List.map_nil, List.range'_succ,
          List.append_assoc]
        rfl
      · simp only [List.length_cons] at hs
        exact ih t (by omega) n acc

/-- Counterexample to C3 as stated: with forced term "aa" and protected
term "bb", the first protected-term key is `[_P1_]`, not `[_P0_]` — the
protected-term layer continues the counter shared with the forced layer
rather than starting from 0 in its own namespace; and two separate
double-space runs both produce the *same* whitespace placeholder
`[_WS_2_]` (the number is the run length, not an increasing index). -/
theorem C3_counterexample :
    (protect_text [toL "bb"] [(toL "aa", toL "X")] (toL "aa bb")).2
      = [(toL "[_F0_]", toL "X"), (toL "[_P1_]", toL "bb")] ∧
    wsSub (toL "a  b  c") = toL "a [_WS_2_] b [_WS_2_] c" := by
  constructor
  · decide
  · decide

theorem takeWhile_replicate_space (k : Nat) :
    (List.replicate k ' ').takeWhile (fun c => decide (c = ' ')) = List.replicate k ' ' ∧
    (List.replicate k ' ').dropWhile (fun c => decide (c = ' ')) = [] := by
  induction k with
  | zero => exact ⟨rfl, rfl⟩
  | succ k ih =>
    constructor
    · simpa [List.replicate_succ, List.takeWhile_cons] using ih.1
    · simpa [List.replicate_succ, List.dropWhile_cons] using ih.2

/-- C3 (amended): within one protection cycle the structural-tag layer
assigns keys `[_TG_n_]` with `n` increasing from its starting counter,
and the glossary layer assigns keys with a single counter shared across
the forced and protected sub-layers — all forced keys `[_F0_]..` first,
then protected keys continuing the same counter (not restarting at 0);
all keys within each of those two maps are distinct, and tag keys never
collide with glossary keys.  Whitespace placeholders are not indexed at
all: for a run of `n ≥ 2` spaces the placeholder records the run length
`n`. -/
theorem C3_placeholder_keys :
    (∀ (P : List (List Char)) (F : List (List Char × List Char)) (text : List Char),
      ∃ a b, (protect_text P F text).2.map Prod.fst
        = (List.range' 0 a).map fKey ++ (List.range' a b).map pKey) ∧
    (∀ (P : List (List Char)) (F : List (List Char × List Char)) (text : List Char),
      ((protect_text P F text).2.map Prod.fst).Nodup) ∧
    (∀ s : List Char, ∃ m, (protectTags s).2.map Prod.fst = (List.range' 0 m).map tgKey) ∧
    (∀ i j : Nat, tgKey i ≠ fKey j ∧ tgKey i ≠ pKey j) ∧
    (∀ n : Nat, 2 ≤ n → wsSub (List.replicate n ' ') = wsKey n) := by
  refine ⟨protect_text_keys, ?_, ?_, fun i j => ⟨tgKey_ne_fKey i j, tgKey_ne_pKey i j⟩, ?_⟩
  · intro P F text
    obtain ⟨a, b, hab⟩ := protect_text_keys P F text
    rw [hab, List.nodup_append]
    refine ⟨(List.nodup_range' 0 a).map fKey_injective,
      (List.nodup_range' a b).map pKey_injective, ?_⟩
    intro k hk1 hk2
    obtain ⟨i, _, rfl⟩ := List.mem_map.1 hk1
    obtain ⟨j, _, hj⟩ := List.mem_map.1 hk2
    exact fKey_ne_pKey i j hj.symm
  · intro s
    obtain ⟨m, hm⟩ := protectTagsGo_keys s.length s le_rfl 0 []
    exact ⟨m, by simpa using hm⟩
  · intro n hn
    obtain ⟨m, rfl⟩ : ∃ m, n = m + 2 := ⟨n - 2, by omega⟩
    rw [show ((m + 2) : Nat) = (m + 1) + 1 from rfl, List.replicate_succ, wsSub_cons,
      if_pos rfl, (takeWhile_replicate_space (m + 1)).1]
    rw [if_pos (by simp only [List.length_replicate]; omega)]
    rw [(takeWhile_replicate_space (m + 1)).2, wsSub_nil, List.append_nil]
    have hlen : 1 + (List.replicate (m + 1) ' ').length = m + 1 + 1 := by
      simp [Nat.add_comm]
    rw [hlen]

/-- Witness for C3's whitespace clause at a concrete run length. -/
theorem C3_placeholder_keys_witness :
    wsSub (List.replicate 3 ' ') = wsKey 3 :=
  C3_placeholder_keys.2.2.2.2 3 (by decide)

/-- Counterexample to C9 as stated: a run whose text is a single space is
empty after trimming, yet it is *not* skipped — it contributes a span
marker and a style entry. -/
theorem C9_counterexample :
    pyStrip [' '] = [] ∧
    (paragraph_to_tagged_text [{ text := [' '], style := freshStyle, hyperlink := none }]).1
      = toL "[R0] [/R0]" ∧
    (paragraph_to_tagged_text
      [{ text := [' '], style := freshStyle, hyperlink := none }]).2.1.length = 1 := by
  decide

/-! ## Occurrence toolbox for `replaceAll` (used by C6 and C7) -/

theorem SubP_of_pref {k s : List Char} (h : k <+: s) : SubP k s := by
  obtain ⟨r, rfl⟩ := h
  exact ⟨[], r, rfl⟩

theorem SubP_cons_elim {k : List Char} {c : Char} {x : List Char} (h : SubP k (c :: x)) :
    k <+: (c :: x) ∨ SubP k x := by
  obtain ⟨a, b, hab⟩ := h
  cases a with
  | nil => exact Or.inl ⟨b, by simpa using hab.symm⟩
  | cons d a' =>
    right
    simp only [List.cons_append] at hab
    exact ⟨a', b, (List.cons.injEq _ _ _ _ ▸ hab).2⟩

theorem SubP_cons_of_SubP {k : List Char} (c : Char) {x : List Char} (h : SubP k x) :
    SubP k (c :: x) := by
  obtain ⟨a, b, rfl⟩ := h
  exact ⟨c :: a, b, rfl⟩

theorem SubP_of_SubP_drop {k s : List Char} {n : Nat} (h : SubP k (s.drop n)) : SubP k s := by
  obtain ⟨a, b, hab⟩ := h
  refine ⟨s.take n ++ a, b, ?_⟩
  conv_lhs => rw [← List.take_append_drop n s]
  rw [hab]
  simp [List.append_assoc]

theorem prefix_append_split {q A Y : List Char} (h : q <+: A ++ Y) :
    q <+: A ∨ ∃ y2, q = A ++ y2 ∧ y2 <+: Y := by
  induction A generalizing q with
  | nil => exact Or.inr ⟨q, by simpa using h⟩
  | cons c A' ih =>
    cases q with
    | nil => exact Or.inl List.nil_prefix
    | cons d q' =>
      rw [List.cons_append] at h
      obtain ⟨rfl, hq'⟩ := List.cons_prefix_cons.1 h
      rcases ih hq' with h1 | ⟨y2, rfl, h2⟩
      · exact Or.inl (List.cons_prefix_cons.2 ⟨rfl, h1⟩)
      · exact Or.inr ⟨y2, by simp, h2⟩

theorem SubP_append_split {k a y : List Char} (h : SubP k (a ++ y)) :
    SubP k a ∨ SubP k y ∨
      ∃ k1 k2, k = k1 ++ k2 ∧ k1 ≠ [] ∧ k2 ≠ [] ∧ k1 <:+ a ∧ k2 <+: y := by
  induction a generalizing k with
  | nil => exact Or.inr (Or.inl (by simpa using h))
  | cons c a' ih =>
    rw [List.cons_append] at h
    rcases SubP_cons_elim h with hpre | hsub
    · cases k with
      | nil => exact Or.inl ⟨c :: a', [], by simp⟩
      | cons d k' =>
        obtain ⟨rfl, hk'⟩ := List.cons_prefix_cons.1 hpre
        rcases prefix_append_split hk' with h1 | ⟨q2, rfl, h2⟩
        · exact Or.inl (SubP_of_pref (List.cons_prefix_cons.2 ⟨rfl, h1⟩))
        · by_cases hq2 : q2 = []
          · subst hq2
            exact Or.inl ⟨[], [], by simp⟩
          · exact Or.inr (Or.inr ⟨_ :: a', q2, by simp, by simp, hq2,
              List.suffix_rfl, h2⟩)
    · rcases ih hsub with h1 | h2 | ⟨k1, k2, hk, h1ne, h2ne, h1suf, h2pre⟩
      · exact Or.inl (SubP_cons_of_SubP c h1)
      · exact Or.inr (Or.inl h2)
      · exact Or.inr (Or.inr ⟨k1, k2, hk, h1ne, h2ne, h1suf.trans (List.suffix_cons c a'),
          h2pre⟩)

/-- The overlap-freeness conditions under which `str.replace(p, v)` can
never create an occurrence of `k`: `k` and `v` are non-empty, neither
contains the other, no short non-empty suffix of `v` is a prefix of `k`,
and no short non-empty prefix of `v` is a suffix of `k`. -/
def noCreateB (k v : List Char) : Bool :=
  !k.isEmpty && !v.isEmpty && !containsSub k v && !containsSub v k &&
  ((List.range v.length).all fun j =>
    !(decide ((v.drop j).length < k.length) && (v.drop j).isPrefixOf k)) &&
  ((List.range v.length).all fun j =>
    !(decide ((v.take (j + 1)).length < k.length) && (v.take (j + 1)).isSuffixOf k))

theorem noCreate_k_ne_nil {k v : List Char} (h : noCreateB k v = true) : k ≠ [] := by
  intro hc
  subst hc
  simp [noCreateB] at h

theorem noCreate_not_sub_kv {k v : List Char} (h : noCreateB k v = true) : ¬ SubP k v := by
  simp only [noCreateB, Bool.and_eq_true, Bool.not_eq_true'] at h
  intro hc
  have := (containsSub_iff_SubP k v).2 hc
  rw [h.1.1.1.2] at this
  exact absurd this (by decide)

theorem noCreate_not_sub_vk {k v : List Char} (h : noCreateB k v = true) : ¬ SubP v k := by
  simp only [noCreateB, Bool.and_eq_true, Bool.not_eq_true'] at h
  intro hc
  have := (containsSub_iff_SubP v k).2 hc
  rw [h.1.1.2] at this
  exact absurd this (by decide)

theorem noCreate_suffix_not_prefix {k v t : List Char} (h : noCreateB k v = true)
    (hsuf : t <:+ v) (hne : t ≠ []) (hlt : t.length < k.length) : ¬ t <+: k := by
  simp only [noCreateB, Bool.and_eq_true] at h
  have hall := h.1.2
  rw [List.all_eq_true] at hall
  obtain ⟨pre, hpre⟩ := hsuf
  have hdrop : v.drop pre.length = t := by rw [← hpre]; simp
  have hj : pre.length < v.length := by
    have := congrArg List.length hpre
    simp only [List.length_append] at this
    have htpos : 0 < t.length := List.length_pos.2 hne
    omega
  have := hall pre.length (List.mem_range.2 hj)
  rw [hdrop] at this
  simp only [Bool.not_eq_true', Bool.and_eq_false_iff, decide_eq_false_iff_not] at this
  intro hpref
  rcases this with h1 | h1
  · exact h1 hlt
  · rw [isPrefixOf_iff.2 hpref] at h1
    exact absurd h1 (by decide)

theorem noCreate_prefix_not_suffix {k v q : List Char} (h : noCreateB k v = true)
    (hpre : q <+: v) (hne : q ≠ []) (hlt : q.length < k.length) : ¬ q <:+ k := by
  simp only [noCreateB, Bool.and_eq_true] at h
  have hall := h.2
  rw [List.all_eq_true] at hall
  have htake : v.take q.length = q := by
    obtain ⟨post, rfl⟩ := hpre
    simp
  have hqpos : 0 < q.length := List.length_pos.2 hne
  have hj : q.length - 1 < v.length := by
    have := hpre.length_le
    omega
  have := hall (q.length - 1) (List.mem_range.2 hj)
  rw [show q.length - 1 + 1 = q.length by omega, htake] at this
  simp only [Bool.not_eq_true', Bool.and_eq_false_iff, decide_eq_false_iff_not] at this
  intro hsuf
  rcases this with h1 | h1
  · exact h1 hlt
  · rw [List.isSuffixOf_iff_suffix.2 hsuf] at h1
    exact absurd h1 (by decide)

/-- Structure of prefixes of a `replaceAll` output: a prefix of the
output is a prefix of the input, or ends inside an inserted copy of `v`,
or swallows a whole copy of `v`. -/
theorem replaceAll_prefix_split (p v : List Char) :
    ∀ (L : Nat) (s : List Char), s.length ≤ L → ∀ q : List Char,
      q <+: replaceAll p v s →
      q <+: s ∨ (∃ q1 q2, q = q1 ++ q2 ∧ q2 ≠ [] ∧ q2 <+: v) ∨ SubP v q := by
  intro L
  induction L with
  | zero =>
    intro s hs q hq
    have : s = [] := List.length_eq_zero.1 (Nat.le_zero.1 hs)
    subst this
    rw [replaceAll_nil] at hq
    exact Or.inl hq
  | succ L ih =>
    intro s hs q hq
    cases s with
    | nil =>
      rw [replaceAll_nil] at hq
      exact Or.inl hq
    | cons c t =>
      rw [replaceAll_cons] at hq
      split at hq
      · rename_i hcond
        rcases prefix_append_split hq with h1 | ⟨q', rfl, h2⟩
        · by_cases hqnil : q = []
          · subst hqnil
            exact Or.inl List.nil_prefix
          · exact Or.inr (Or.inl ⟨[], q, by simp, hqnil, h1⟩)
        · exact Or.inr (Or.inr ⟨[], q', by simp⟩)
      · rename_i hcond
        cases q with
        | nil => exact Or.inl List.nil_prefix
        | cons d q' =>
          obtain ⟨rfl, hq'⟩ := List.cons_prefix_cons.1 hq
          simp only [List.length_cons] at hs
          rcases ih t (by omega) q' hq' with h1 | ⟨q1, q2, rfl, h2ne, h2pre⟩ | h3
          · exact Or.inl (List.cons_prefix_cons.2 ⟨rfl, h1⟩)
          · exact Or.inr (Or.inl ⟨d :: q1, q2, by simp, h2ne, h2pre⟩)
          · exact Or.inr (Or.inr (SubP_cons_of_SubP _ h3))

/-- Main non-creation lemma: replacing `p` by `v` never leaves or creates
an occurrence of `k`, provided `k` and `v` cannot overlap
(`noCreateB k v`) and either `p = k` (self-replacement) or `s` was
already `k`-free. -/
theorem replaceAll_no_occurrence (k : List Char) :
    ∀ (L : Nat) (s : List Char), s.length ≤ L → ∀ (p v : List Char),
      noCreateB k v = true → (p = k ∨ ¬ SubP k s) → ¬ SubP k (replaceAll p v s) := by
  intro L
  induction L with
  | zero =>
    intro s hs p v hnc _ hsub
    have : s = [] := List.length_eq_zero.1 (Nat.le_zero.1 hs)
    subst this
    rw [replaceAll_nil] at hsub
    obtain ⟨a, b, hab⟩ := hsub
    rcases List.append_eq_nil.1 hab.symm with ⟨h1, _⟩
    exact noCreate_k_ne_nil hnc (List.append_eq_nil.1 h1).2
  | succ L ih =>
    intro s hs p v hnc hdisj hsub
    cases s with
    | nil =>
      rw [replaceAll_nil] at hsub
      obtain ⟨a, b, hab⟩ := hsub
      rcases List.append_eq_nil.1 hab.symm with ⟨h1, _⟩
      exact noCreate_k_ne_nil hnc (List.append_eq_nil.1 h1).2
    | cons c t =>
      simp only [List.length_cons] at hs
      rw [replaceAll_cons] at hsub
      split at hsub
      · rename_i hcond
        rcases SubP_append_split hsub with h1 | h2 | ⟨k1, k2, hk, h1ne, h2ne, h1suf, h2pre⟩
        · exact noCreate_not_sub_kv hnc h1
        · have hp : 0 < p.length := List.length_pos.2 hcond.1
          have hdisj2 : p = k ∨ ¬ SubP k ((c :: t).drop p.length) := by
            rcases hdisj with h | h
            · exact Or.inl h
            · exact Or.inr fun hx => h (SubP_of_SubP_drop hx)
          exact ih ((c :: t).drop p.length)
            (by simp only [List.length_drop, List.length_cons]; omega) p v hnc hdisj2 h2
        · have hk1pre : k1 <+: k := hk ▸ List.prefix_append k1 k2
          have hk1lt : k1.length < k.length := by
            have := congrArg List.length hk
            simp only [List.length_append] at this
            have := List.length_pos.2 h2ne
            omega
          exact noCreate_suffix_not_prefix hnc h1suf h1ne hk1lt hk1pre
      · rename_i hcond
        have hknp : ¬ (k <+: (c :: t)) := by
          rcases hdisj with rfl | h
          · intro hx
            exact hcond ⟨noCreate_k_ne_nil hnc, isPrefixOf_iff.2 hx⟩
          · exact fun hx => h (SubP_of_pref hx)
        rcases SubP_cons_elim hsub with hpre | hsub2
        · cases k with
          | nil => exact noCreate_k_ne_nil hnc rfl
          | cons d k2 =>
            obtain ⟨rfl, hk2⟩ := List.cons_prefix_cons.1 hpre
            rcases replaceAll_prefix_split p v t.length t le_rfl k2 hk2 with
              h1 | ⟨q1, q2, hk2eq, hq2ne, hq2pre⟩ | h3
            · exact hknp (List.cons_prefix_cons.2 ⟨rfl, h1⟩)
            · have hq2suf : q2 <:+ (d :: k2) := by
                rw [hk2eq]
                exact ⟨d :: q1, by simp⟩
              have hq2lt : q2.length < (d :: k2).length := by
                have := congrArg List.length hk2eq
                simp only [List.length_append, List.length_cons] at *
                omega
              exact noCreate_prefix_not_suffix hnc hq2pre hq2ne hq2lt hq2suf
            · exact noCreate_not_sub_vk hnc (SubP_cons_of_SubP _ h3)
        · have hdisj2 : p = k ∨ ¬ SubP k t := by
            rcases hdisj with h | h
            · exact Or.inl h
            · exact Or.inr fun hx => h (SubP_cons_of_SubP c hx)
          exact ih t (by omega) p v hnc hdisj2 hsub2

/-- A `p`-free string is a fixed point of `str.replace(p, v)`. -/
theorem replaceAll_id (p v : List Char) (hp : p ≠ []) :
    ∀ s : List Char, ¬ SubP p s → replaceAll p v s = s := by
  intro s
  induction s with
  | nil => intro _; exact replaceAll_nil p v
  | cons c t ih =>
    intro h
    rw [replaceAll_cons]
    rw [if_neg ?_]
    · exact congrArg (c :: ·) (ih fun hx => h (SubP_cons_of_SubP c hx))
    · intro hcond
      exact h (SubP_of_pref (isPrefixOf_iff.1 hcond.2))

/-- `str.replace` passes over a region where the pattern matches at no
position. -/
theorem replaceAll_append_no_match (p v : List Char) :
    ∀ (A X : List Char),
      (∀ i, i < A.length → ¬ (p.isPrefixOf ((A ++ X).drop i) = true)) →
      replaceAll p v (A ++ X) = A ++ replaceAll p v X := by
  intro A
  induction A with
  | nil => intro X _; rfl
  | cons c A' ih =>
    intro X hno
    rw [List.cons_append, replaceAll_cons, if_neg ?_]
    · refine congrArg (c :: ·) (ih X ?_)
      intro i hi
      have := hno (i + 1) (by simp only [List.length_cons]; omega)
      simpa using this
    · intro hcond
      exact hno 0 (by simp) (by simpa using hcond.2)

/-- `str.replace` fires at an exact pattern occurrence at the head. -/
theorem replaceAll_head_match (p v rest : List Char) (hp : p ≠ []) :
    replaceAll p v (p ++ rest) = v ++ replaceAll p v rest := by
  cases p with
  | nil => exact absurd rfl hp
  | cons d p' =>
    rw [List.cons_append, replaceAll_cons, if_pos ?_]
    · congr 1
      have : ((d :: p') ++ rest).drop (d :: p').length = rest := List.drop_left _ _
      rw [← List.cons_append, this]
    · exact ⟨hp, isPrefixOf_iff.2 (by rw [← List.cons_append]; exact List.prefix_append _ _)⟩

theorem SubP_head_mem {x : Char} {r s : List Char} (h : SubP (x :: r) s) : x ∈ s := by
  obtain ⟨a, b, rfl⟩ := h
  simp

theorem not_prefix_headfree {x : Char} {p' A X : List Char} (hA : x ∉ A) :
    ∀ i, i < A.length → ¬ ((x :: p').isPrefixOf ((A ++ X).drop i) = true) := by
  intro i hi hpre
  rw [List.drop_append_of_le_length (le_of_lt hi)] at hpre
  have hpre2 := isPrefixOf_iff.1 hpre
  obtain ⟨r, hr⟩ := hpre2
  cases hdrop : A.drop i with
  | nil =>
    have := congrArg List.length hdrop
    simp only [List.length_drop, List.length_nil] at this
    omega
  | cons y ys =>
    rw [hdrop, List.cons_append] at hr
    have hy : y = x := by
      have := hr.symm
      simp only [List.cons_append, List.cons.injEq] at this
      exact this.1
    apply hA
    have : y ∈ A.drop i := by rw [hdrop]; exact List.mem_cons_self _ _
    exact hy ▸ List.drop_subset i A this

/-- `str.replace` passes unchanged over a region free of the pattern's
first character. -/
theorem replaceAll_skip_headfree (x : Char) (p' v : List Char) (A X : List Char)
    (hA : x ∉ A) :
    replaceAll (x :: p') v (A ++ X) = A ++ replaceAll (x :: p') v X :=
  replaceAll_append_no_match _ _ _ _ (not_prefix_headfree hA)

/-- Variant allowing the region's first character to equal the pattern's,
provided the pattern does not actually match there. -/
theorem replaceAll_skip_cons (x : Char) (p' v : List Char) (y : Char) (A' X : List Char)
    (h0 : ¬ ((x :: p').isPrefixOf ((y :: A') ++ X) = true)) (hA' : x ∉ A') :
    replaceAll (x :: p') v ((y :: A') ++ X) = (y :: A') ++ replaceAll (x :: p') v X := by
  apply replaceAll_append_no_match
  intro i hi
  cases i with
  | zero => simpa using h0
  | succ i =>
    simp only [List.length_cons] at hi
    have := @not_prefix_headfree x p' A' X hA' i (by omega)
    simpa using this

theorem replaceAll_id_headfree (x : Char) (p' v : List Char) (s : List Char)
    (hx : x ∉ s) : replaceAll (x :: p') v s = s :=
  replaceAll_id _ _ (by simp) s fun hsub => hx (SubP_head_mem hsub)

theorem spacedKey_bracket (inter : List Char) (h1 : '[' ∉ inter) (h2 : ']' ∉ inter) :
    spacedKey ('[' :: inter ++ [']']) = '[' :: ' ' :: inter ++ [' ', ']'] := by
  unfold spacedKey
  have hnotin : '[' ∉ inter ++ [']'] := by
    simp only [List.mem_append, List.mem_singleton]
    push_neg
    exact ⟨h1, by decide⟩
  have hinner : replaceAll ['['] ['[', ' '] ('[' :: inter ++ [']'])
      = '[' :: ' ' :: (inter ++ [']']) := by
    have hm := replaceAll_head_match ['['] ['[', ' '] (inter ++ [']']) (by simp)
    have hid := replaceAll_id_headfree '[' [] ['[', ' '] (inter ++ [']']) hnotin
    simp only [List.singleton_append] at hm
    rw [List.cons_append, hm, hid]
    rfl
  rw [hinner]
  have hA : (']' : Char) ∉ ('[' :: ' ' :: inter) := by
    simp only [List.mem_cons]
    push_neg
    exact ⟨by decide, by decide, h2⟩
  have hskip := replaceAll_skip_headfree ']' [] [' ', ']'] ('[' :: ' ' :: inter) [']'] hA
  have heq : '[' :: ' ' :: (inter ++ [']']) = ('[' :: ' ' :: inter) ++ [']'] := by simp
  rw [heq, hskip]
  have hm2 := replaceAll_head_match [']'] [' ', ']'] [] (by simp)
  simp only [List.append_nil, List.singleton_append] at hm2
  rw [hm2, replaceAll_nil]
  simp

/-- C6 (amended): `restore_text` replaces both every exact occurrence of
a placeholder key and every occurrence of its *both-spaces* variant (a
space after the opening bracket *and* before the closing bracket, which
is what `key.replace("[", "[ ").replace("]", " ]")` produces); a variant
with only one inserted space is not recognised. -/
theorem C6_restore_spaced_variant (inter v a b c : List Char)
    (hi1 : '[' ∉ inter) (hi2 : ']' ∉ inter) (hi3 : ' ' ∉ inter)
    (ha : '[' ∉ a) (hb : '[' ∉ b) (hc : '[' ∉ c) (hv : '[' ∉ v) :
    restore_text
        (a ++ (('[' :: (inter ++ [']'])) ++ (b ++ (spacedKey ('[' :: (inter ++ [']'])) ++ c))))
        [(('[' :: (inter ++ [']'])), v)]
      = a ++ (v ++ (b ++ (v ++ c))) := by
  have hsp := spacedKey_bracket inter hi1 hi2
  have hsp2 : spacedKey ('[' :: (inter ++ [']'])) = '[' :: (' ' :: (inter ++ [' ', ']'])) := by
    simpa only [List.cons_append] using hsp
  unfold restore_text
  simp only [List.foldl_cons, List.foldl_nil]
  rw [hsp2]
  rw [replaceAll_skip_headfree '[' (inter ++ [']']) v a _ ha]
  rw [replaceAll_head_match ('[' :: (inter ++ [']'])) v _ (by simp)]
  rw [replaceAll_skip_headfree '[' (inter ++ [']']) v b _ hb]
  rw [replaceAll_skip_cons '[' (inter ++ [']']) v '[' (' ' :: (inter ++ [' ', ']'])) c ?h0 ?hA]
  case h0 =>
    intro hx
    have hx2 := isPrefixOf_iff.1 hx
    rw [List.cons_append] at hx2
    obtain ⟨-, hx3⟩ := List.cons_prefix_cons.1 hx2
    cases inter with
    | nil =>
      simp only [List.nil_append] at hx3
      rw [List.cons_append] at hx3
      obtain ⟨h, -⟩ := List.cons_prefix_cons.1 hx3
      exact absurd h (by decide)
    | cons i0 it =>
      rw [List.cons_append, List.cons_append] at hx3
      obtain ⟨h, -⟩ := List.cons_prefix_cons.1 hx3
      subst h
      exact hi3 (List.mem_cons_self _ _)
  case hA =>
    intro hx
    simp only [List.mem_cons, List.mem_append, List.mem_singleton] at hx
    rcases hx with h | h | h | h
    · exact absurd h (by decide)
    · exact hi1 h
    · exact absurd h (by decide)
    · exact absurd h (by decide)
  rw [replaceAll_id_headfree '[' (inter ++ [']']) v c hc]
  rw [replaceAll_skip_headfree '[' (' ' :: (inter ++ [' ', ']'])) v a _ ha]
  rw [replaceAll_skip_headfree '[' (' ' :: (inter ++ [' ', ']'])) v v _ hv]
  rw [replaceAll_skip_headfree '[' (' ' :: (inter ++ [' ', ']'])) v b _ hb]
  rw [replaceAll_head_match ('[' :: (' ' :: (inter ++ [' ', ']']))) v c (by simp)]
  rw [replaceAll_id_headfree '[' (' ' :: (inter ++ [' ', ']'])) v c hc]

/-- Witness for C6 at the concrete key `[_F0_]`. -/
theorem C6_restore_spaced_variant_witness :
    restore_text
        ((toL "x ") ++ (('[' :: (toL "_F0_" ++ [']']))
          ++ ((toL " y ") ++ (spacedKey ('[' :: (toL "_F0_" ++ [']'])) ++ (toL " z")))))
        [(('[' :: (toL "_F0_" ++ [']'])), toL "OK")]
      = (toL "x ") ++ ((toL "OK") ++ ((toL " y ") ++ ((toL "OK") ++ (toL " z")))) :=
  C6_restore_spaced_variant (toL "_F0_") (toL "OK") (toL "x ") (toL " y ") (toL " z")
    (by decide) (by decide) (by decide) (by decide) (by decide) (by decide) (by decide)

/-- Counterexample to C6 as stated: a key corrupted by a *single*
internal space next to the opening bracket only (`[ _F0_]`) is not
restored — the code only tolerates the variant with both spaces
inserted. -/
theorem C6_counterexample :
    restore_text (toL "[ _F0_]") [(toL "[_F0_]", toL "X")] = toL "[ _F0_]" ∧
    toL "[ _F0_]" ≠ toL "X" := by
  constructor
  · decide
  · decide

/-! ## Idempotence machinery for the cleanup normalizer (C7) -/

/-- Is some lowercase letter immediately followed by an uppercase one? -/
def hasLU : List Char → Bool
  | a :: b :: t => (isLowerAZ a && isUpperAZ b) || hasLU (b :: t)
  | _ => false

theorem upper_not_lower {c : Char} (h : isUpperAZ c = true) : isLowerAZ c = false := by
  simp only [isUpperAZ, Bool.and_eq_true, decide_eq_true_eq] at h
  by_cases h2 : isLowerAZ c = true
  · simp only [isLowerAZ, Bool.and_eq_true, decide_eq_true_eq] at h2
    omega
  · exact Bool.eq_false_iff.2 h2

theorem hasLU_cons_of_upper {b : Char} (hb : isUpperAZ b = true) :
    ∀ Y : List Char, hasLU (b :: Y) = hasLU Y := by
  intro Y
  cases Y with
  | nil => rfl
  | cons y Y' =>
    rw [hasLU]
    rw [upper_not_lower hb]
    simp

theorem spaceLU_cons_head (b : Char) (rest : List Char) :
    ∃ M, spaceLU (b :: rest) = b :: M := by
  cases rest with
  | nil => exact ⟨[], rfl⟩
  | cons c r =>
    rw [spaceLU]
    split
    · exact ⟨' ' :: c :: spaceLU r, rfl⟩
    · exact ⟨spaceLU (c :: r), rfl⟩

theorem spaceLU_cons_upper {b : Char} (hb : isUpperAZ b = true) (rest : List Char) :
    spaceLU (b :: rest) = b :: spaceLU rest := by
  cases rest with
  | nil => rfl
  | cons c r =>
    rw [spaceLU, if_neg]
    simp only [upper_not_lower hb, Bool.false_and, Bool.false_eq_true, not_false_iff]

theorem hasLU_spaceLU : ∀ (L : Nat) (s : List Char), s.length ≤ L →
    hasLU (spaceLU s) = false := by
  intro L
  induction L with
  | zero =>
    intro s hs
    have : s = [] := List.length_eq_zero.1 (Nat.le_zero.1 hs)
    subst this
    rfl
  | succ L ih =>
    intro s hs
    match s with
    | [] => rfl
    | [c] => rfl
    | a :: b :: rest =>
      simp only [List.length_cons] at hs
      rw [spaceLU]
      split
      · rename_i hpair
        simp only [Bool.and_eq_true] at hpair
        rw [hasLU, hasLU]
        have h1 : isUpperAZ ' ' = false := rfl
        have h2 : isLowerAZ ' ' = false := rfl
        rw [h1, h2]
        simp only [Bool.and_false, Bool.false_and, Bool.false_or]
        rw [hasLU_cons_of_upper hpair.2]
        exact ih rest (by omega)
      · rename_i hpair
        obtain ⟨M, hM⟩ := spaceLU_cons_head b rest
        rw [hM, hasLU]
        have : (isLowerAZ a && isUpperAZ b) = false := by
          by_contra hx
          exact hpair (by simpa using hx)
        rw [this]
        simp only [Bool.false_or]
        rw [← hM]
        exact ih (b :: rest) (by simp only [List.length_cons]; omega)

theorem spaceLU_id : ∀ (L : Nat) (s : List Char), s.length ≤ L →
    hasLU s = false → spaceLU s = s := by
  intro L
  induction L with
  | zero =>
    intro s hs _
    have : s = [] := List.length_eq_zero.1 (Nat.le_zero.1 hs)
    subst this
    rfl
  | succ L ih =>
    intro s hs h
    match s with
    | [] => rfl
    | [c] => rfl
    | a :: b :: rest =>
      simp only [List.length_cons] at hs
      rw [hasLU, Bool.or_eq_false_iff] at h
      rw [spaceLU, if_neg (by rw [h.1]; simp)]
      exact congrArg (a :: ·) (ih (b :: rest) (by simp only [List.length_cons]; omega) h.2)

/-- A pattern is *space-safe* when every space in it is followed, inside
the pattern, by a non-uppercase character: such a pattern can never
absorb a space inserted by `spaceLU` (those are always followed by an
uppercase letter). -/
def spaceOk : List Char → Bool
  | [] => true
  | [c] => c ≠ ' '
  | a :: b :: t => (if a = ' ' then !isUpperAZ b else true) && spaceOk (b :: t)

theorem spaceOk_tail {x : Char} {r : List Char} (h : spaceOk (x :: r) = true) :
    spaceOk r = true := by
  cases r with
  | nil => rfl
  | cons y r' =>
    rw [spaceOk, Bool.and_eq_true] at h
    exact h.2

theorem spaceOk_single_space : spaceOk [' '] = false := by decide

theorem spaceOk_space_upper {b : Char} {t : List Char} (hb : isUpperAZ b = true) :
    spaceOk (' ' :: b :: t) = false := by
  rw [spaceOk, if_pos rfl, hb]
  simp

/-- Prefixes of `spaceLU` output: a space-safe pattern that is a prefix
of the output is already a prefix of the input. -/
theorem prefix_spaceLU : ∀ (L : Nat) (z : List Char), z.length ≤ L →
    ∀ k : List Char, spaceOk k = true → k <+: spaceLU z → k <+: z := by
  intro L
  induction L with
  | zero =>
    intro z hz k _ hk
    have : z = [] := List.length_eq_zero.1 (Nat.le_zero.1 hz)
    subst this
    exact hk
  | succ L ih =>
    intro z hz k hok hk
    match z with
    | [] => exact hk
    | [c] => exact hk
    | a :: b :: rest =>
      simp only [List.length_cons] at hz
      rw [spaceLU] at hk
      split at hk
      · rename_i hpair
        simp only [Bool.and_eq_true] at hpair
        cases k with
        | nil => exact List.nil_prefix
        | cons d k' =>
          obtain ⟨rfl, hk'⟩ := List.cons_prefix_cons.1 hk
          cases k' with
          | nil => exact List.cons_prefix_cons.2 ⟨rfl, List.nil_prefix⟩
          | cons e k'' =>
            obtain ⟨rfl, hk''⟩ := List.cons_prefix_cons.1 hk'
            cases k'' with
            | nil =>
              have := spaceOk_tail hok
              rw [spaceOk_single_space] at this
              exact absurd this (by decide)
            | cons g k3 =>
              obtain ⟨rfl, _⟩ := List.cons_prefix_cons.1 hk''
              have htail := spaceOk_tail hok
              rw [spaceOk_space_upper hpair.2] at htail
              exact absurd htail (by decide)
      · cases k with
        | nil => exact List.nil_prefix
        | cons d k' =>
          obtain ⟨rfl, hk'⟩ := List.cons_prefix_cons.1 hk
          have := ih (b :: rest) (by simp only [List.length_cons]; omega) k'
            (spaceOk_tail hok) hk'
          exact List.cons_prefix_cons.2 ⟨rfl, this⟩

/-- Occurrences in `spaceLU` output: a space-safe pattern occurring in
the output already occurs in the input. -/
theorem subP_spaceLU : ∀ (L : Nat) (z : List Char), z.length ≤ L →
    ∀ k : List Char, spaceOk k = true → SubP k (spaceLU z) → SubP k z := by
  intro L
  induction L with
  | zero =>
    intro z hz k _ hk
    have : z = [] := List.length_eq_zero.1 (Nat.le_zero.1 hz)
    subst this
    exact hk
  | succ L ih =>
    intro z hz k hok hk
    match z with
    | [] => exact hk
    | [c] => exact hk
    | a :: b :: rest =>
      simp only [List.length_cons] at hz
      by_cases hpair : (isLowerAZ a && isUpperAZ b) = true
      · have hsp : spaceLU (a :: b :: rest) = a :: ' ' :: b :: spaceLU rest := by
          rw [spaceLU, if_pos hpair]
        rw [hsp] at hk
        simp only [Bool.and_eq_true] at hpair
        rcases SubP_cons_elim hk with hpre | hk2
        · have : k <+: spaceLU (a :: b :: rest) := by rw [hsp]; exact hpre
          exact SubP_of_pref (prefix_spaceLU (L + 1) (a :: b :: rest)
            (by simp only [List.length_cons]; omega) k hok this)
        · rcases SubP_cons_elim hk2 with hpre2 | hk3
          · cases k with
            | nil => exact ⟨[], a :: b :: rest, rfl⟩
            | cons d k' =>
              obtain ⟨rfl, hk'⟩ := List.cons_prefix_cons.1 hpre2
              cases k' with
              | nil => exact absurd hok (by rw [spaceOk_single_space]; decide)
              | cons e k'' =>
                obtain ⟨rfl, _⟩ := List.cons_prefix_cons.1 hk'
                rw [spaceOk_space_upper hpair.2] at hok
                exact absurd hok (by decide)
          · have hbW : b :: spaceLU rest = spaceLU (b :: rest) :=
              (spaceLU_cons_upper hpair.2 rest).symm
            rw [hbW] at hk3
            have := ih (b :: rest) (by simp only [List.length_cons]; omega) k hok hk3
            exact SubP_cons_of_SubP a this
      · have hsp : spaceLU (a :: b :: rest) = a :: spaceLU (b :: rest) := by
          rw [spaceLU, if_neg (by simpa using hpair)]
        rw [hsp] at hk
        rcases SubP_cons_elim hk with hpre | hk2
        · have : k <+: spaceLU (a :: b :: rest) := by rw [hsp]; exact hpre
          exact SubP_of_pref (prefix_spaceLU (L + 1) (a :: b :: rest)
            (by simp only [List.length_cons]; omega) k hok this)
        · exact SubP_cons_of_SubP a
            (ih (b :: rest) (by simp only [List.length_cons]; omega) k hok hk2)

/-- Weakened non-creation condition, for preserving `k`-freeness across
`str.replace(p, v)`: `k` and `v` are non-empty, neither of `k` and `v`
contains the other, every non-empty suffix of `v` that is a prefix of `k`
is also a suffix of `p` (so a straddling occurrence of `k` in the output
shifts back to one in the input), and no short non-empty prefix of `v`
is a suffix of `k`. -/
def noCreatePB (k p v : List Char) : Bool :=
  !k.isEmpty && !v.isEmpty && !containsSub k v && !containsSub v k &&
  ((List.range v.length).all fun j =>
    !((v.drop j).isPrefixOf k) || (v.drop j).isSuffixOf p) &&
  ((List.range v.length).all fun j =>
    !(decide ((v.take (j + 1)).length < k.length) && (v.take (j + 1)).isSuffixOf k))

theorem noCreateP_k_ne_nil {k p v : List Char} (h : noCreatePB k p v = true) : k ≠ [] := by
  intro hc
  subst hc
  simp [noCreatePB] at h

theorem noCreateP_not_sub_kv {k p v : List Char} (h : noCreatePB k p v = true) :
    ¬ SubP k v := by
  simp only [noCreatePB, Bool.and_eq_true, Bool.not_eq_true'] at h
  intro hc
  have := (containsSub_iff_SubP k v).2 hc
  rw [h.1.1.1.2] at this
  exact absurd this (by decide)

theorem noCreateP_not_sub_vk {k p v : List Char} (h : noCreatePB k p v = true) :
    ¬ SubP v k := by
  simp only [noCreatePB, Bool.and_eq_true, Bool.not_eq_true'] at h
  intro hc
  have := (containsSub_iff_SubP v k).2 hc
  rw [h.1.1.2] at this
  exact absurd this (by decide)

theorem noCreateP_suffix_shift {k p v t : List Char} (h : noCreatePB k p v = true)
    (hsuf : t <:+ v) (hne : t ≠ []) (hpre : t <+: k) : t <:+ p := by
  simp only [noCreatePB, Bool.and_eq_true] at h
  have hall := h.1.2
  rw [List.all_eq_true] at hall
  obtain ⟨pre, hpre2⟩ := hsuf
  have hdrop : v.drop pre.length = t := by rw [← hpre2]; simp
  have hj : pre.length < v.length := by
    have := congrArg List.length hpre2
    simp only [List.length_append] at this
    have htpos : 0 < t.length := List.length_pos.2 hne
    omega
  have hx := hall pre.length (List.mem_range.2 hj)
  rw [hdrop] at hx
  simp only [Bool.or_eq_true, Bool.not_eq_true'] at hx
  rcases hx with h1 | h1
  · rw [isPrefixOf_iff.2 hpre] at h1
    exact absurd h1 (by decide)
  · exact List.isSuffixOf_iff_suffix.1 h1

theorem noCreateP_prefix_not_suffix {k p v q : List Char} (h : noCreatePB k p v = true)
    (hpre : q <+: v) (hne : q ≠ []) (hlt : q.length < k.length) : ¬ q <:+ k := by
  simp only [noCreatePB, Bool.and_eq_true] at h
  have hall := h.2
  rw [List.all_eq_true] at hall
  have htake : v.take q.length = q := by
    obtain ⟨post, rfl⟩ := hpre
    simp
  have hqpos : 0 < q.length := List.length_pos.2 hne
  have hj : q.length - 1 < v.length := by
    have := hpre.length_le
    omega
  have := hall (q.length - 1) (List.mem_range.2 hj)
  rw [show q.length - 1 + 1 = q.length by omega, htake] at this
  simp only [Bool.not_eq_true', Bool.and_eq_false_iff, decide_eq_false_iff_not] at this
  intro hsuf
  rcases this with h1 | h1
  · exact h1 hlt
  · rw [List.isSuffixOf_iff_suffix.2 hsuf] at h1
    exact absurd h1 (by decide)

/-- `str.replace(p, v)` preserves `k`-freeness under `noCreatePB k p v`:
a straddling occurrence of `k` ending inside the untouched remainder
shifts back to an occurrence in the input, because the overlapping
suffix of `v` is also a suffix of the removed `p`. -/
theorem replaceAll_preserve_free (k p v : List Char) (hnc : noCreatePB k p v = true) :
    ∀ (L : Nat) (s : List Char), s.length ≤ L → ¬ SubP k s →
      ¬ SubP k (replaceAll p v s) := by
  intro L
  induction L with
  | zero =>
    intro s hs hfree hsub
    have : s = [] := List.length_eq_zero.1 (Nat.le_zero.1 hs)
    subst this
    rw [replaceAll_nil] at hsub
    exact hfree hsub
  | succ L ih =>
    intro s hs hfree hsub
    cases s with
    | nil =>
      rw [replaceAll_nil] at hsub
      exact hfree hsub
    | cons c t =>
      simp only [List.length_cons] at hs
      rw [replaceAll_cons] at hsub
      split at hsub
      · rename_i hcond
        have hp : 0 < p.length := List.length_pos.2 hcond.1
        rcases SubP_append_split hsub with h1 | h2 | ⟨k1, k2, hk, h1ne, h2ne, h1suf, h2pre⟩
        · exact noCreateP_not_sub_kv hnc h1
        · exact ih ((c :: t).drop p.length)
            (by simp only [List.length_drop, List.length_cons]; omega)
            (fun hx => hfree (SubP_of_SubP_drop hx)) h2
        · have hk1k : k1 <+: k := hk ▸ List.prefix_append k1 k2
          have hk1p : k1 <:+ p := noCreateP_suffix_shift hnc h1suf h1ne hk1k
          have hppre : p <+: (c :: t) := isPrefixOf_iff.1 hcond.2
          obtain ⟨p1, hp1⟩ := hk1p
          obtain ⟨s2, hs2⟩ := hppre
          have hdropeq : (c :: t).drop p.length = s2 := by
            rw [← hs2]
            simp
          rcases replaceAll_prefix_split p v ((c :: t).drop p.length).length
              ((c :: t).drop p.length) le_rfl k2 h2pre with
            hA | ⟨q1, q2, hk2eq, hq2ne, hq2pre⟩ | hC
          · rw [hdropeq] at hA
            obtain ⟨s3, hs3⟩ := hA
            refine hfree ⟨p1, s3, ?_⟩
            rw [← hs2, ← hp1, ← hs3, hk]
            simp [List.append_assoc]
          · have hq2suf : q2 <:+ k := by
              rw [hk, hk2eq]
              exact ⟨k1 ++ q1, by simp [List.append_assoc]⟩
            have hq2lt : q2.length < k.length := by
              have ha := congrArg List.length hk
              have hb := congrArg List.length hk2eq
              simp only [List.length_append] at ha hb
              have := List.length_pos.2 h1ne
              omega
            exact noCreateP_prefix_not_suffix hnc hq2pre hq2ne hq2lt hq2suf
          · have : SubP v k := by
              obtain ⟨a, b, hab⟩ := hC
              exact ⟨k1 ++ a, b, by rw [hk, hab]; simp [List.append_assoc]⟩
            exact noCreateP_not_sub_vk hnc this
      · rename_i hcond
        rcases SubP_cons_elim hsub with hpre | hsub2
        · cases k with
          | nil => exact noCreateP_k_ne_nil hnc rfl
          | cons d k2 =>
            obtain ⟨rfl, hk2⟩ := List.cons_prefix_cons.1 hpre
            rcases replaceAll_prefix_split p v t.length t le_rfl k2 hk2 with
              hA | ⟨q1, q2, hk2eq, hq2ne, hq2pre⟩ | hC
            · exact hfree (SubP_of_pref (List.cons_prefix_cons.2 ⟨rfl, hA⟩))
            · have hq2suf : q2 <:+ (d :: k2) := by
                rw [hk2eq]
                exact ⟨d :: q1, by simp⟩
              have hq2lt : q2.length < (d :: k2).length := by
                have := congrArg List.length hk2eq
                simp only [List.length_append, List.length_cons] at *
                omega
              exact noCreateP_prefix_not_suffix hnc hq2pre hq2ne hq2lt hq2suf
            · exact noCreateP_not_sub_vk hnc (SubP_cons_of_SubP _ hC)
        · exact ih t (by omega) (fun hx => hfree (SubP_cons_of_SubP c hx)) hsub2

/-- `k`-freeness is preserved through a whole replacement table when
every entry satisfies the non-creation condition against `k`. -/
theorem foldl_preserve_free (k : List Char) :
    ∀ (T : List (List Char × List Char)) (s : List Char),
      (∀ e ∈ T, noCreatePB k e.1 e.2 = true) → ¬ SubP k s →
      ¬ SubP k (T.foldl (fun acc kv => replaceAll kv.1 kv.2 acc) s) := by
  intro T
  induction T with
  | nil => intro s _ hfree; exact hfree
  | cons e T' ih =>
    intro s hall hfree
    rw [List.foldl_cons]
    exact ih (replaceAll e.1 e.2 s)
      (fun a ha => hall a (List.mem_cons_of_mem e ha))
      (replaceAll_preserve_free k e.1 e.2 (hall e (List.mem_cons_self e T'))
        s.length s le_rfl hfree)

/-- After folding the whole table, no key of the table occurs in the
result, provided each entry kills its own key and no entry can recreate
another entry's key. -/
theorem foldl_kills_keys :
    ∀ (T : List (List Char × List Char)) (s : List Char),
      (∀ e ∈ T, noCreateB e.1 e.2 = true) →
      (∀ e ∈ T, ∀ e' ∈ T, noCreatePB e.1 e'.1 e'.2 = true) →
      ∀ e ∈ T, ¬ SubP e.1 (T.foldl (fun acc kv => replaceAll kv.1 kv.2 acc) s) := by
  intro T
  induction T with
  | nil => intro s _ _ e he; exact absurd he (List.not_mem_nil e)
  | cons e0 T' ih =>
    intro s hself hcross e he
    rw [List.foldl_cons]
    rcases List.mem_cons.1 he with heq | he'
    · subst heq
      exact foldl_preserve_free e.1 T' (replaceAll e.1 e.2 s)
        (fun a ha => hcross e (List.mem_cons_self e T') a (List.mem_cons_of_mem e ha))
        (replaceAll_no_occurrence e.1 s.length s le_rfl e.1 e.2
          (hself e (List.mem_cons_self e T')) (Or.inl rfl))
    · exact ih (replaceAll e0.1 e0.2 s)
        (fun a ha => hself a (List.mem_cons_of_mem e0 ha))
        (fun a ha b hb => hcross a (List.mem_cons_of_mem e0 ha) b (List.mem_cons_of_mem e0 hb))
        e he'

/-- A string free of every key of the table is a fixed point of the
table fold. -/
theorem foldl_id_of_kfree :
    ∀ (T : List (List Char × List Char)) (s : List Char),
      (∀ e ∈ T, e.1 ≠ []) → (∀ e ∈ T, ¬ SubP e.1 s) →
      T.foldl (fun acc kv => replaceAll kv.1 kv.2 acc) s = s := by
  intro T
  induction T with
  | nil => intro s _ _; rfl
  | cons e0 T' ih =>
    intro s hne hfree
    rw [List.foldl_cons,
      replaceAll_id e0.1 e0.2 (hne e0 (List.mem_cons_self e0 T')) s
        (hfree e0 (List.mem_cons_self e0 T'))]
    exact ih s (fun a ha => hne a (List.mem_cons_of_mem e0 ha))
      (fun a ha => hfree a (List.mem_cons_of_mem e0 ha))

theorem takeWhile_append_stop {p : Char → Bool} :
    ∀ (a : List Char) (c : Char) (b : List Char), (∀ x ∈ a, p x = true) → p c = false →
      (a ++ c :: b).takeWhile p = a := by
  intro a
  induction a with
  | nil =>
    intro c b _ hc
    simp [List.takeWhile_cons, hc]
  | cons d a' ih =>
    intro c b ha hc
    have hd : p d = true := ha d (List.mem_cons_self d a')
    rw [List.cons_append, List.takeWhile_cons, hd]
    simp only [ite_true]
    exact congrArg (d :: ·) (ih c b (fun x hx => ha x (List.mem_cons_of_mem d hx)) hc)

theorem matchOpen_eq (s2 : List Char) :
    matchOpen ('[' :: 'R' :: s2)
      = if (s2.takeWhile isDigitCh).isEmpty then none
        else
          match s2.drop (s2.takeWhile isDigitCh).length with
          | ']' :: rest => some (s2.takeWhile isDigitCh, rest)
          | _ => none := rfl

theorem matchOpen_openMark (k : Nat) (X : List Char) :
    matchOpen (openMark k ++ X) = some (natToDigits k, X) := by
  have hshape : openMark k ++ X = '[' :: 'R' :: (natToDigits k ++ ']' :: X) := by
    simp [openMark]
  have htw : (natToDigits k ++ ']' :: X).takeWhile isDigitCh = natToDigits k :=
    takeWhile_append_stop (natToDigits k) ']' X (natToDigits_all_digit k) (by decide)
  have hne : (natToDigits k).isEmpty = false := by
    cases hnk : natToDigits k with
    | nil => exact absurd hnk (natToDigits_ne_nil k)
    | cons a l => rfl
  have hdrop : (natToDigits k ++ ']' :: X).drop (natToDigits k).length = ']' :: X :=
    List.drop_left (natToDigits k) (']' :: X)
  rw [hshape, matchOpen_eq, htw, hne, hdrop]
  rfl

theorem splitOnClose_eq (d : List Char) (c : Char) (rest : List Char) :
    splitOnClose d (c :: rest)
      = if (closePat d).isPrefixOf (c :: rest) then
          some ([], (c :: rest).drop (closePat d).length)
        else
          match splitOnClose d rest with
          | some (pre, post) => some (c :: pre, post)
          | none => none := rfl

theorem splitOnClose_skip (d : List Char) :
    ∀ (w : List Char), (∀ c ∈ w, c ≠ '[') → ∀ X : List Char,
      splitOnClose d (w ++ closePat d ++ X) = some (w, X) := by
  intro w
  induction w with
  | nil =>
    intro _ X
    have hform : ([] : List Char) ++ closePat d ++ X
        = '[' :: ('/' :: 'R' :: ((d ++ [']']) ++ X)) := by
      simp [closePat]
    have hpre : (closePat d).isPrefixOf (closePat d ++ X) = true :=
      isPrefixOf_iff.2 (List.prefix_append _ _)
    have hdropX : (closePat d ++ X).drop (closePat d).length = X :=
      List.drop_left (closePat d) X
    have hback : closePat d ++ X = '[' :: ('/' :: 'R' :: ((d ++ [']']) ++ X)) := by
      simp [closePat]
    rw [hform, splitOnClose_eq, ← hback, hpre, hdropX]
    rfl
  | cons c w' ih =>
    intro hw X
    have hc : c ≠ '[' := hw c (List.mem_cons_self c w')
    have hform : (c :: w') ++ closePat d ++ X = c :: (w' ++ closePat d ++ X) := by
      simp
    rw [hform, splitOnClose_eq,
      if_neg ?hq, ih (fun x hx => hw x (List.mem_cons_of_mem c hx)) X]
    case hq =>
      intro hpre
      have h2 := isPrefixOf_iff.1 hpre
      rw [show closePat d = '[' :: ('/' :: 'R' :: d ++ [']']) from rfl] at h2
      exact hc (List.cons_prefix_cons.1 h2).1.symm

theorem findSpans_step (k : Nat) (w rest : List Char) (hw : ∀ c ∈ w, c ≠ '[') :
    findSpans (openMark k ++ (w ++ (closeMark k ++ rest)))
      = (natToDigits k, w) :: findSpans rest := by
  have hshape : openMark k ++ (w ++ (closeMark k ++ rest))
      = '[' :: (('R' :: natToDigits k ++ [']']) ++ (w ++ (closeMark k ++ rest))) := by
    simp [openMark]
  have hsp : splitOnClose (natToDigits k) (w ++ (closeMark k ++ rest)) = some (w, rest) := by
    rw [show closeMark k = closePat (natToDigits k) from rfl,
      show w ++ (closePat (natToDigits k) ++ rest)
        = w ++ closePat (natToDigits k) ++ rest by simp]
    exact splitOnClose_skip (natToDigits k) w hw rest
  rw [hshape, findSpans_cons, ← hshape]
  simp only [matchOpen_openMark, hsp]

theorem encodeAux_hyper_keys (k : Nat) :
    ∀ runs : List Run, ∀ e ∈ (encodeAux k runs).2.2, k ≤ e.1 := by
  intro runs
  induction runs generalizing k with
  | nil => intro e he; simp [encodeAux] at he
  | cons r rs ih =>
    intro e he
    rw [encodeAux] at he
    split at he
    · exact ih k e he
    · simp only at he
      split at he
      · split at he
        · exact Nat.le_of_succ_le (ih (k + 1) e he)
        · rcases List.mem_cons.1 he with rfl | he2
          · exact le_rfl
          · exact Nat.le_of_succ_le (ih (k + 1) e he2)
      · exact Nat.le_of_succ_le (ih (k + 1) e he)

theorem getD_append_self {α : Type} (d : α) :
    ∀ (A : List α) (x : α) (B : List α), (A ++ x :: B).getD A.length d = x := by
  intro A
  induction A with
  | nil => intro x B; rfl
  | cons a A' ih => intro x B; exact ih x B

theorem lookupA_append_ne (k : Nat) :
    ∀ (A B : List (Nat × List Char)), (∀ e ∈ A, e.1 ≠ k) →
      lookupA k (A ++ B) = lookupA k B := by
  intro A
  induction A with
  | nil => intro B _; rfl
  | cons a A' ih =>
    intro B hA
    obtain ⟨i, u⟩ := a
    rw [List.cons_append, lookupA,
      if_neg (hA (i, u) (List.mem_cons_self (i, u) A')),
      ih B (fun e he => hA e (List.mem_cons_of_mem (i, u) he))]

theorem lookupA_none (k : Nat) :
    ∀ (B : List (Nat × List Char)), (∀ e ∈ B, e.1 ≠ k) → lookupA k B = none := by
  intro B hB
  have := lookupA_append_ne k B [] hB
  simpa using this

/-- Position safety for the attribute-tag patterns: every occurrence of
the character `<` is immediately followed, inside the string, by a
character other than `d`, so a pattern starting `<` then `d` can match at
no position, not even straddling past the end of this string. -/
def segOkHead (d c : Char) : List Char → Bool
  | [] => decide (c ≠ '<')
  | e :: _ => if c = '<' then decide (e ≠ d) else true

def segSafe (d : Char) : List Char → Bool
  | [] => true
  | c :: t => segOkHead d c t && segSafe d t

theorem segSafe_cons_elim {d : Char} {c : Char} {t : List Char}
    (h : segSafe d (c :: t) = true) : segSafe d t = true := by
  rw [segSafe, Bool.and_eq_true] at h
  exact h.2

theorem segSafe_head {d c : Char} {t : List Char} (h : segSafe d (c :: t) = true)
    (hc : c = '<') : ∃ e t2, t = e :: t2 ∧ e ≠ d := by
  rw [segSafe, Bool.and_eq_true] at h
  have h1 := h.1
  cases t with
  | nil =>
    rw [segOkHead, hc] at h1
    exact absurd h1 (by decide)
  | cons e t2 =>
    rw [segOkHead, if_pos hc] at h1
    exact ⟨e, t2, rfl, by simpa using h1⟩

theorem segSafe_append (d : Char) :
    ∀ (A B : List Char), segSafe d A = true → segSafe d B = true →
      segSafe d (A ++ B) = true := by
  intro A
  induction A with
  | nil => intro B _ hB; exact hB
  | cons c A2 ih =>
    intro B hA hB
    have htail := segSafe_cons_elim hA
    rw [List.cons_append, segSafe, Bool.and_eq_true]
    refine ⟨?_, ih B htail hB⟩
    by_cases hc : c = '<'
    · obtain ⟨e, t2, ht, hed⟩ := segSafe_head hA hc
      rw [ht, List.cons_append, segOkHead, if_pos hc]
      exact decide_eq_true hed
    · cases hab : A2 ++ B with
      | nil => rw [segOkHead]; exact decide_eq_true hc
      | cons e t2 => rw [segOkHead, if_neg hc]

theorem segSafe_no_lt (d : Char) :
    ∀ A : List Char, (∀ c ∈ A, c ≠ '<') → segSafe d A = true := by
  intro A
  induction A with
  | nil => intro _; rfl
  | cons c A2 ih =>
    intro h
    rw [segSafe, Bool.and_eq_true]
    have hcne : c ≠ '<' := h c (List.mem_cons_self c A2)
    refine ⟨?_, ih (fun x hx => h x (List.mem_cons_of_mem c hx))⟩
    cases A2 with
    | nil => exact decide_eq_true hcne
    | cons e t2 => rw [segOkHead, if_neg hcne]

theorem segSafe_not_prefix {d : Char} (p2 : List Char) :
    ∀ s : List Char, segSafe d s = true → ¬ ('<' :: d :: p2) <+: s := by
  intro s h hpre
  cases s with
  | nil =>
    obtain ⟨r, hr⟩ := hpre
    simp at hr
  | cons c t =>
    obtain ⟨hc, hpre2⟩ := List.cons_prefix_cons.1 hpre
    obtain ⟨e, t2, ht, hed⟩ := segSafe_head h hc.symm
    subst ht
    exact hed (List.cons_prefix_cons.1 hpre2).1.symm

/-- A pattern `<` `d` … occurs nowhere in a position-safe string. -/
theorem not_SubP_of_segSafe {d : Char} (p2 : List Char) :
    ∀ s : List Char, segSafe d s = true → ¬ SubP ('<' :: d :: p2) s := by
  intro s
  induction s with
  | nil =>
    intro _ hsub
    obtain ⟨a, b, hab⟩ := hsub
    simp at hab
  | cons c t ih =>
    intro h hsub
    rcases SubP_cons_elim hsub with hpre | hsub2
    · exact segSafe_not_prefix p2 (c :: t) h hpre
    · exact ih (segSafe_cons_elim h) hsub2

theorem stripAttrTag_append_seg (d : Char) (p2 : List Char) :
    ∀ (A X : List Char), segSafe d A = true →
      stripAttrTag ('<' :: d :: p2) (A ++ X) = A ++ stripAttrTag ('<' :: d :: p2) X := by
  intro A
  induction A with
  | nil => intro X _; rfl
  | cons c A2 ih =>
    intro X hA
    rw [List.cons_append, stripAttrTag_cons]
    have hnp : ¬ ('<' :: d :: p2) <+: (c :: (A2 ++ X)) := by
      by_cases hc : c = '<'
      · subst hc
        obtain ⟨e, t2, ht, hed⟩ := segSafe_head hA rfl
        subst ht
        intro hpre
        rw [List.cons_append] at hpre
        exact hed (List.cons_prefix_cons.1 (List.cons_prefix_cons.1 hpre).2).1.symm
      · intro hpre
        exact hc (List.cons_prefix_cons.1 hpre).1.symm
    have hmn : matchAttrTag ('<' :: d :: p2) (c :: (A2 ++ X)) = none := by
      unfold matchAttrTag
      rw [if_neg (fun hx => hnp (isPrefixOf_iff.1 hx))]
    rw [hmn]
    exact congrArg (c :: ·) (ih X (segSafe_cons_elim hA))

theorem stripAttrTag_id_seg (d : Char) (p2 A : List Char) (hA : segSafe d A = true) :
    stripAttrTag ('<' :: d :: p2) A = A := by
  have := stripAttrTag_append_seg d p2 A [] hA
  simpa [stripAttrTag_nil] using this

theorem matchAttrTag_head (pre v rest : List Char) (hv : ∀ c ∈ v, c ≠ '"') :
    matchAttrTag pre (pre ++ (v ++ '"' :: '>' :: rest)) = some rest := by
  unfold matchAttrTag
  rw [if_pos (isPrefixOf_iff.2 (List.prefix_append _ _))]
  rw [List.drop_left]
  have htw : (v ++ '"' :: '>' :: rest).takeWhile (fun c => decide (c ≠ '"')) = v :=
    takeWhile_append_stop v '"' ('>' :: rest)
      (fun x hx => decide_eq_true (hv x hx)) (by decide)
  rw [htw, List.drop_left]
  rfl

theorem stripAttrTag_head (d : Char) (p2 v rest : List Char) (hv : ∀ c ∈ v, c ≠ '"') :
    stripAttrTag ('<' :: d :: p2) (('<' :: d :: p2) ++ (v ++ '"' :: '>' :: rest))
      = stripAttrTag ('<' :: d :: p2) rest := by
  have hform : ('<' :: d :: p2) ++ (v ++ '"' :: '>' :: rest)
      = '<' :: (d :: p2 ++ (v ++ '"' :: '>' :: rest)) := by simp
  rw [hform, stripAttrTag_cons, ← hform]
  simp only [matchAttrTag_head _ _ _ hv]

theorem matchSimpleTag_ne_lt {c : Char} (s : List Char) (hc : c ≠ '<') :
    matchSimpleTag (c :: s) = none := by
  unfold matchSimpleTag
  split
  · rename_i x rest heq
    injection heq with h1 h2
    exact absurd h1 hc
  · rename_i x rest heq
    injection heq with h1 h2
    exact absurd h1 hc
  · rfl

theorem matchSimpleTag_open (x : Char) (X : List Char) (hx2 : x ≠ '/') :
    matchSimpleTag ('<' :: x :: '>' :: X) = if biuch x then some X else none := by
  unfold matchSimpleTag
  split
  · rename_i rest heq
    injection heq with h1 h2
    injection h2 with h2 h3
    exact absurd h2 hx2
  · rename_i y rest heq
    injection heq with h1 h2
    injection h2 with h2 h3
    injection h3 with h3 h4
    subst h2
    subst h4
    rfl
  · rename_i hno
    exact absurd rfl (hno x X)

theorem matchSimpleTag_close (x : Char) (X : List Char) :
    matchSimpleTag ('<' :: '/' :: x :: '>' :: X) = if biuch x then some X else none := by
  unfold matchSimpleTag
  split
  · rename_i y rest heq
    injection heq with h1 h2
    injection h2 with h2 h3
    injection h3 with h3 h4
    injection h4 with h4 h5
    subst h3
    subst h5
    rfl
  · rename_i y rest2 hno heq
    injection heq with h1 h2
    injection h2 with h2a h2b
    injection h2b with h2b1 h2b2
    exact absurd h2b2.symm (fun hx => hno X h2a.symm hx)
  · rename_i hno1 hno2
    exact absurd rfl (hno1 x X)

theorem stripSimpleTags_skip_char (c : Char) (X : List Char) (hc : c ≠ '<') :
    stripSimpleTags (c :: X) = c :: stripSimpleTags X := by
  rw [stripSimpleTags_cons]
  simp only [matchSimpleTag_ne_lt X hc]

theorem stripSimpleTags_append_nolt :
    ∀ (A X : List Char), (∀ c ∈ A, c ≠ '<') →
      stripSimpleTags (A ++ X) = A ++ stripSimpleTags X := by
  intro A
  induction A with
  | nil => intro X _; rfl
  | cons c A2 ih =>
    intro X hA
    rw [List.cons_append,
      stripSimpleTags_skip_char c (A2 ++ X) (hA c (List.mem_cons_self c A2)),
      ih X (fun z hz => hA z (List.mem_cons_of_mem c hz))]
    rfl

theorem stripSimpleTags_open (x : Char) (X : List Char) (hx : biuch x = true)
    (hx2 : x ≠ '/') : stripSimpleTags ('<' :: x :: '>' :: X) = stripSimpleTags X := by
  rw [stripSimpleTags_cons, matchSimpleTag_open x X hx2, if_pos hx]

theorem stripSimpleTags_close (x : Char) (X : List Char) (hx : biuch x = true) :
    stripSimpleTags ('<' :: '/' :: x :: '>' :: X) = stripSimpleTags X := by
  rw [stripSimpleTags_cons, matchSimpleTag_close x X, if_pos hx]

theorem stripSimple_wrap (x : Char) (hx : biuch x = true) (hx2 : x ≠ '/')
    (f : Bool) (X text : List Char)
    (hX : ∀ T, stripSimpleTags (X ++ T) = text ++ stripSimpleTags T) :
    ∀ T, stripSimpleTags
        ((if f then ('<' :: x :: '>' :: []) ++ X ++ ('<' :: '/' :: x :: '>' :: []) else X) ++ T)
      = text ++ stripSimpleTags T := by
  intro T
  cases f
  · simpa using hX T
  · have hshape : ((('<' :: x :: '>' :: []) ++ X ++ ('<' :: '/' :: x :: '>' :: [])) ++ T)
        = '<' :: x :: '>' :: (X ++ ('<' :: '/' :: x :: '>' :: T)) := by simp
    have hshape2 : ('<' :: '/' :: x :: '>' :: []) ++ T = '<' :: '/' :: x :: '>' :: T := rfl
    simp only [if_true]
    rw [hshape, stripSimpleTags_open x _ hx hx2, ← hshape2, hX,
      hshape2, stripSimpleTags_close x T hx]

/-- The five inline wrappers of `wrapText`, factored out. -/
def bWrap (f : Bool) (x : List Char) : List Char :=
  if f then toL "<b>" ++ x ++ toL "</b>" else x

def iWrap (f : Bool) (x : List Char) : List Char :=
  if f then toL "<i>" ++ x ++ toL "</i>" else x

def uWrap (f : Bool) (x : List Char) : List Char :=
  if f then toL "<u>" ++ x ++ toL "</u>" else x

def cWrap (f : Bool) (col x : List Char) : List Char :=
  if f then toL "<c rgb=\"" ++ col ++ toL "\">" ++ x ++ toL "</c>" else x

def hWrap (f : Bool) (hl x : List Char) : List Char :=
  if f then toL "<h col=\"" ++ hl ++ toL "\">" ++ x ++ toL "</h>" else x

theorem wrapText_eq (st : RunStyle) (text : List Char) :
    wrapText st text
      = hWrap (truthyS st.highlight) (st.highlight.getD [])
          (cWrap (truthyS st.color) (st.color.getD [])
            (uWrap (truthyB st.underline)
              (iWrap (truthyB st.italic) (bWrap (truthyB st.bold) text)))) := by
  simp only [wrapText, bWrap, iWrap, uWrap, cWrap, hWrap]

theorem stripSimple_BIU (fb fi fu : Bool) (text : List Char)
    (htext : ∀ c ∈ text, c ≠ '<') :
    ∀ T, stripSimpleTags (uWrap fu (iWrap fi (bWrap fb text)) ++ T)
      = text ++ stripSimpleTags T := by
  have h0 : ∀ T, stripSimpleTags (text ++ T) = text ++ stripSimpleTags T :=
    fun T => stripSimpleTags_append_nolt text T htext
  have hb : bWrap fb text
      = if fb then ('<' :: 'b' :: '>' :: []) ++ text ++ ('<' :: '/' :: 'b' :: '>' :: [])
        else text := rfl
  have h1 : ∀ T, stripSimpleTags (bWrap fb text ++ T) = text ++ stripSimpleTags T := by
    rw [hb]
    exact stripSimple_wrap 'b' (by decide) (by decide) fb text text h0
  have hi : iWrap fi (bWrap fb text)
      = if fi then ('<' :: 'i' :: '>' :: []) ++ bWrap fb text ++ ('<' :: '/' :: 'i' :: '>' :: [])
        else bWrap fb text := rfl
  have h2 : ∀ T, stripSimpleTags (iWrap fi (bWrap fb text) ++ T)
      = text ++ stripSimpleTags T := by
    rw [hi]
    exact stripSimple_wrap 'i' (by decide) (by decide) fi (bWrap fb text) text h1
  have hu : uWrap fu (iWrap fi (bWrap fb text))
      = if fu then ('<' :: 'u' :: '>' :: []) ++ iWrap fi (bWrap fb text)
          ++ ('<' :: '/' :: 'u' :: '>' :: [])
        else iWrap fi (bWrap fb text) := rfl
  rw [hu]
  exact stripSimple_wrap 'u' (by decide) (by decide) fu (iWrap fi (bWrap fb text)) text h2

theorem segSafe_tag3 (d x : Char) (hxd : x ≠ d) (hxlt : x ≠ '<') :
    segSafe d ('<' :: x :: '>' :: []) = true := by
  simp [segSafe, segOkHead, hxd, hxlt]

theorem segSafe_tag4 (d x : Char) (hsd : '/' ≠ d) (hxlt : x ≠ '<') :
    segSafe d ('<' :: '/' :: x :: '>' :: []) = true := by
  simp [segSafe, segOkHead, hsd, hxlt]

theorem bWrap_false (x : List Char) : bWrap false x = x := rfl

theorem iWrap_false (x : List Char) : iWrap false x = x := rfl

theorem uWrap_false (x : List Char) : uWrap false x = x := rfl

theorem cWrap_false (col x : List Char) : cWrap false col x = x := rfl

theorem hWrap_false (hl x : List Char) : hWrap false hl x = x := rfl

theorem segSafe_wrapTag (d x : Char) (hxd : x ≠ d) (hxlt : x ≠ '<') (hsd : '/' ≠ d)
    (f : Bool) (X : List Char) (hX : segSafe d X = true) :
    segSafe d ((if f then ('<' :: x :: '>' :: []) ++ X ++ ('<' :: '/' :: x :: '>' :: []) else X))
      = true := by
  cases f
  · simpa using hX
  · simp only [if_true]
    exact segSafe_append d _ _
      (segSafe_append d _ _ (segSafe_tag3 d x hxd hxlt) hX) (segSafe_tag4 d x hsd hxlt)

theorem segSafe_bWrap (d : Char) (hb : 'b' ≠ d) (hsd : '/' ≠ d) (f : Bool)
    (X : List Char) (hX : segSafe d X = true) : segSafe d (bWrap f X) = true := by
  rw [show bWrap f X
    = (if f then ('<' :: 'b' :: '>' :: []) ++ X ++ ('<' :: '/' :: 'b' :: '>' :: []) else X)
    from rfl]
  exact segSafe_wrapTag d 'b' hb (by decide) hsd f X hX

theorem segSafe_iWrap (d : Char) (hi : 'i' ≠ d) (hsd : '/' ≠ d) (f : Bool)
    (X : List Char) (hX : segSafe d X = true) : segSafe d (iWrap f X) = true := by
  rw [show iWrap f X
    = (if f then ('<' :: 'i' :: '>' :: []) ++ X ++ ('<' :: '/' :: 'i' :: '>' :: []) else X)
    from rfl]
  exact segSafe_wrapTag d 'i' hi (by decide) hsd f X hX

theorem segSafe_uWrap (d : Char) (hu : 'u' ≠ d) (hsd : '/' ≠ d) (f : Bool)
    (X : List Char) (hX : segSafe d X = true) : segSafe d (uWrap f X) = true := by
  rw [show uWrap f X
    = (if f then ('<' :: 'u' :: '>' :: []) ++ X ++ ('<' :: '/' :: 'u' :: '>' :: []) else X)
    from rfl]
  exact segSafe_wrapTag d 'u' hu (by decide) hsd f X hX

theorem segSafe_cAttrOpen (d : Char) (hcd : 'c' ≠ d) (col : List Char)
    (hcol : ∀ c ∈ col, c ≠ '<') :
    segSafe d (toL "<c rgb=\"" ++ col ++ toL "\">") = true := by
  refine segSafe_append d _ _ (segSafe_append d _ _ ?_ (segSafe_no_lt d col hcol)) ?_
  · show segSafe d ('<' :: 'c' :: ' ' :: 'r' :: 'g' :: 'b' :: '=' :: '"' :: []) = true
    simp [segSafe, segOkHead, hcd]
  · exact segSafe_no_lt d (toL "\">") (by decide)

theorem segSafe_hAttrOpen (d : Char) (hhd : 'h' ≠ d) (hl : List Char)
    (hhl : ∀ c ∈ hl, c ≠ '<') :
    segSafe d (toL "<h col=\"" ++ hl ++ toL "\">") = true := by
  refine segSafe_append d _ _ (segSafe_append d _ _ ?_ (segSafe_no_lt d hl hhl)) ?_
  · show segSafe d ('<' :: 'h' :: ' ' :: 'c' :: 'o' :: 'l' :: '=' :: '"' :: []) = true
    simp [segSafe, segOkHead, hhd]
  · exact segSafe_no_lt d (toL "\">") (by decide)

theorem segSafe_cWrap (d : Char) (hcd : 'c' ≠ d) (hsd : '/' ≠ d) (f : Bool)
    (col X : List Char) (hcol : ∀ c ∈ col, c ≠ '<') (hX : segSafe d X = true) :
    segSafe d (cWrap f col X) = true := by
  cases f
  · rw [cWrap_false]; exact hX
  · rw [show cWrap true col X
      = (toL "<c rgb=\"" ++ col ++ toL "\">") ++ X ++ toL "</c>" by
        simp [cWrap, List.append_assoc]]
    refine segSafe_append d _ _
      (segSafe_append d _ _ (segSafe_cAttrOpen d hcd col hcol) hX) ?_
    show segSafe d ('<' :: '/' :: 'c' :: '>' :: []) = true
    exact segSafe_tag4 d 'c' hsd (by decide)

theorem segSafe_hWrap (d : Char) (hhd : 'h' ≠ d) (hsd : '/' ≠ d) (f : Bool)
    (hl X : List Char) (hhl : ∀ c ∈ hl, c ≠ '<') (hX : segSafe d X = true) :
    segSafe d (hWrap f hl X) = true := by
  cases f
  · rw [hWrap_false]; exact hX
  · rw [show hWrap true hl X
      = (toL "<h col=\"" ++ hl ++ toL "\">") ++ X ++ toL "</h>" by
        simp [hWrap, List.append_assoc]]
    refine segSafe_append d _ _
      (segSafe_append d _ _ (segSafe_hAttrOpen d hhd hl hhl) hX) ?_
    show segSafe d ('<' :: '/' :: 'h' :: '>' :: []) = true
    exact segSafe_tag4 d 'h' hsd (by decide)

theorem strip_c_core (fc : Bool) (col u1 T : List Char)
    (hcol : ∀ c ∈ col, c ≠ '"')
    (hsafe : segSafe 'c' (u1 ++ ((if fc then toL "</c>" else []) ++ T)) = true) :
    stripAttrTag (toL "<c rgb=\"") (cWrap fc col u1 ++ T)
      = u1 ++ ((if fc then toL "</c>" else []) ++ T) := by
  cases fc
  · rw [cWrap_false]
    rw [show ((if (false : Bool) then toL "</c>" else []) : List Char) = [] from rfl,
      List.nil_append] at hsafe ⊢
    rw [show toL "<c rgb=\"" = '<' :: 'c' :: toL " rgb=\"" from rfl]
    exact stripAttrTag_id_seg 'c' _ _ hsafe
  · rw [show ((if (true : Bool) then toL "</c>" else []) : List Char) = toL "</c>" from rfl]
      at hsafe ⊢
    rw [show toL "<c rgb=\"" = '<' :: 'c' :: toL " rgb=\"" from rfl]
    have hform : cWrap true col u1 ++ T
        = ('<' :: 'c' :: toL " rgb=\"") ++ (col ++ '"' :: '>' :: (u1 ++ (toL "</c>" ++ T))) := by
      have hA : toL "<c rgb=\"" = '<' :: 'c' :: toL " rgb=\"" := rfl
      have hB : toL "\">" = '"' :: '>' :: ([] : List Char) := rfl
      simp [cWrap, hA, hB, List.append_assoc]
    rw [hform, stripAttrTag_head 'c' (toL " rgb=\"") col (u1 ++ (toL "</c>" ++ T)) hcol]
    exact stripAttrTag_id_seg 'c' _ _ hsafe

theorem strip_h_core (fh : Bool) (hl Y : List Char)
    (hhl : ∀ c ∈ hl, c ≠ '"')
    (hsafe : segSafe 'h' Y = true) :
    stripAttrTag (toL "<h col=\"")
        ((if fh then toL "<h col=\"" ++ hl ++ toL "\">" else []) ++ Y)
      = Y := by
  cases fh
  · rw [show ((if (false : Bool) then toL "<h col=\"" ++ hl ++ toL "\">" else [])
        : List Char) = [] from rfl, List.nil_append]
    rw [show toL "<h col=\"" = '<' :: 'h' :: toL " col=\"" from rfl]
    exact stripAttrTag_id_seg 'h' _ _ hsafe
  · rw [show toL "<h col=\"" = '<' :: 'h' :: toL " col=\"" from rfl]
    have hform : (if (true : Bool)
          then ('<' :: 'h' :: toL " col=\"") ++ hl ++ toL "\">" else []) ++ Y
        = ('<' :: 'h' :: toL " col=\"") ++ (hl ++ '"' :: '>' :: Y) := by
      have hB : toL "\">" = '"' :: '>' :: ([] : List Char) := rfl
      simp [hB, List.append_assoc]
    rw [hform, stripAttrTag_head 'h' (toL " col=\"") hl Y hhl]
    exact stripAttrTag_id_seg 'h' _ _ hsafe

theorem stripSimple_closers (fc fh : Bool) :
    stripSimpleTags ((if fc then toL "</c>" else []) ++ (if fh then toL "</h>" else []))
      = [] := by
  cases fc
  · cases fh
    · rfl
    · show stripSimpleTags ('<' :: '/' :: 'h' :: '>' :: []) = []
      rw [stripSimpleTags_close 'h' [] (by decide)]
      rfl
  · cases fh
    · show stripSimpleTags ('<' :: '/' :: 'c' :: '>' :: []) = []
      rw [stripSimpleTags_close 'c' [] (by decide)]
      rfl
    · show stripSimpleTags ('<' :: '/' :: 'c' :: '>' :: '<' :: '/' :: 'h' :: '>' :: []) = []
      rw [stripSimpleTags_close 'c' _ (by decide), stripSimpleTags_close 'h' [] (by decide)]
      rfl

theorem unescapeEnt_id (text : List Char) (h : ∀ c ∈ text, c ≠ '&') :
    unescapeEnt text = text := by
  have h1 : ∀ p : List Char, ¬ SubP ('&' :: p) text := by
    intro p hs
    exact h '&' (SubP_head_mem hs) rfl
  unfold unescapeEnt
  rw [show toL "&lt;" = '&' :: toL "lt;" from rfl,
    show toL "&gt;" = '&' :: toL "gt;" from rfl,
    show toL "&amp;" = '&' :: toL "amp;" from rfl]
  rw [replaceAll_id _ _ (by simp) text (h1 _), replaceAll_id _ _ (by simp) text (h1 _),
    replaceAll_id _ _ (by simp) text (h1 _)]

/-- Decoding the inline-wrapped text of a clean run recovers the text. -/
theorem parse_wrapText (st : RunStyle) (text : List Char)
    (htext : ∀ c ∈ text, c ≠ '<' ∧ c ≠ '&')
    (hcol : ∀ c ∈ st.color.getD [], c ≠ '<' ∧ c ≠ '"')
    (hhl : ∀ c ∈ st.highlight.getD [], c ≠ '<' ∧ c ≠ '"') :
    parse_and_extract_text (wrapText st text) = text := by
  have htlt : ∀ c ∈ text, c ≠ '<' := fun c hc => (htext c hc).1
  have hclt : ∀ c ∈ st.color.getD [], c ≠ '<' := fun c hc => (hcol c hc).1
  have hhlt : ∀ c ∈ st.highlight.getD [], c ≠ '<' := fun c hc => (hhl c hc).1
  have hu1c : segSafe 'c' (uWrap (truthyB st.underline)
      (iWrap (truthyB st.italic) (bWrap (truthyB st.bold) text))) = true :=
    segSafe_uWrap 'c' (by decide) (by decide) _ _
      (segSafe_iWrap 'c' (by decide) (by decide) _ _
        (segSafe_bWrap 'c' (by decide) (by decide) _ _ (segSafe_no_lt 'c' text htlt)))
  have hu1h : segSafe 'h' (uWrap (truthyB st.underline)
      (iWrap (truthyB st.italic) (bWrap (truthyB st.bold) text))) = true :=
    segSafe_uWrap 'h' (by decide) (by decide) _ _
      (segSafe_iWrap 'h' (by decide) (by decide) _ _
        (segSafe_bWrap 'h' (by decide) (by decide) _ _ (segSafe_no_lt 'h' text htlt)))
  have hccls : segSafe 'c' (if truthyS st.color then toL "</c>" else []) = true := by
    cases truthyS st.color
    · decide
    · show segSafe 'c' ('<' :: '/' :: 'c' :: '>' :: []) = true
      exact segSafe_tag4 'c' 'c' (by decide) (by decide)
  have hccls2 : segSafe 'c' (if truthyS st.highlight then toL "</h>" else []) = true := by
    cases truthyS st.highlight
    · decide
    · show segSafe 'c' ('<' :: '/' :: 'h' :: '>' :: []) = true
      exact segSafe_tag4 'c' 'h' (by decide) (by decide)
  have hhcls : segSafe 'h' (if truthyS st.color then toL "</c>" else []) = true := by
    cases truthyS st.color
    · decide
    · show segSafe 'h' ('<' :: '/' :: 'c' :: '>' :: []) = true
      exact segSafe_tag4 'h' 'c' (by decide) (by decide)
  have hhcls2 : segSafe 'h' (if truthyS st.highlight then toL "</h>" else []) = true := by
    cases truthyS st.highlight
    · decide
    · show segSafe 'h' ('<' :: '/' :: 'h' :: '>' :: []) = true
      exact segSafe_tag4 'h' 'h' (by decide) (by decide)
  have hstage1 : stripAttrTag (toL "<c rgb=\"")
      (hWrap (truthyS st.highlight) (st.highlight.getD [])
        (cWrap (truthyS st.color) (st.color.getD [])
          (uWrap (truthyB st.underline)
            (iWrap (truthyB st.italic) (bWrap (truthyB st.bold) text)))))
      = (if truthyS st.highlight
          then toL "<h col=\"" ++ st.highlight.getD [] ++ toL "\">" else [])
        ++ (uWrap (truthyB st.underline)
            (iWrap (truthyB st.italic) (bWrap (truthyB st.bold) text))
          ++ ((if truthyS st.color then toL "</c>" else [])
            ++ (if truthyS st.highlight then toL "</h>" else []))) := by
    cases hft : truthyS st.highlight
    · rw [hWrap_false]
      rw [show ((if (false : Bool) then toL "<h col=\"" ++ st.highlight.getD []
          ++ toL "\">" else []) : List Char) = [] from rfl, List.nil_append]
      rw [show ((if (false : Bool) then toL "</h>" else []) : List Char) = [] from rfl]
      conv_lhs => rw [← List.append_nil (cWrap (truthyS st.color) (st.color.getD [])
        (uWrap (truthyB st.underline)
          (iWrap (truthyB st.italic) (bWrap (truthyB st.bold) text))))]
      exact strip_c_core (truthyS st.color) (st.color.getD []) _ []
        (fun c hc => (hcol c hc).2)
        (segSafe_append 'c' _ _ hu1c (segSafe_append 'c' _ _ hccls (by decide)))
    · rw [show ((if (true : Bool) then toL "<h col=\"" ++ st.highlight.getD []
          ++ toL "\">" else []) : List Char)
        = toL "<h col=\"" ++ st.highlight.getD [] ++ toL "\">" from rfl]
      rw [show ((if (true : Bool) then toL "</h>" else []) : List Char)
        = toL "</h>" from rfl]
      rw [show hWrap true (st.highlight.getD [])
          (cWrap (truthyS st.color) (st.color.getD [])
            (uWrap (truthyB st.underline)
              (iWrap (truthyB st.italic) (bWrap (truthyB st.bold) text))))
        = (toL "<h col=\"" ++ st.highlight.getD [] ++ toL "\">")
          ++ (cWrap (truthyS st.color) (st.color.getD [])
              (uWrap (truthyB st.underline)
                (iWrap (truthyB st.italic) (bWrap (truthyB st.bold) text)))
            ++ toL "</h>") from by simp [hWrap, List.append_assoc]]
      rw [show toL "<c rgb=\"" = '<' :: 'c' :: toL " rgb=\"" from rfl]
      rw [stripAttrTag_append_seg 'c' (toL " rgb=\"") _ _
        (segSafe_hAttrOpen 'c' (by decide) (st.highlight.getD []) hhlt)]
      rw [show ('<' : Char) :: 'c' :: toL " rgb=\"" = toL "<c rgb=\"" from rfl]
      rw [strip_c_core (truthyS st.color) (st.color.getD []) _ (toL "</h>")
        (fun c hc => (hcol c hc).2)
        (segSafe_append 'c' _ _ hu1c (segSafe_append 'c' _ _ hccls
          (show segSafe 'c' ('<' :: '/' :: 'h' :: '>' :: []) = true from
            segSafe_tag4 'c' 'h' (by decide) (by decide))))]
  unfold parse_and_extract_text
  rw [wrapText_eq, hstage1]
  rw [strip_h_core (truthyS st.highlight) (st.highlight.getD []) _
    (fun c hc => (hhl c hc).2)
    (segSafe_append 'h' _ _ hu1h (segSafe_append 'h' _ _ hhcls hhcls2))]
  rw [stripSimple_BIU (truthyB st.bold) (truthyB st.italic) (truthyB st.underline)
    text htlt ((if truthyS st.color then toL "</c>" else [])
      ++ (if truthyS st.highlight then toL "</h>" else []))]
  rw [stripSimple_closers (truthyS st.color) (truthyS st.highlight), List.append_nil]
  exact unescapeEnt_id text (fun c hc => (htext c hc).2)

theorem opt_truthyS_id (o : Option (List Char)) (ho : o ≠ some []) :
    (if truthyS o then o else none) = o := by
  cases o with
  | none => rfl
  | some v =>
    cases v with
    | nil => exact absurd rfl ho
    | cons a l => rfl

theorem opt_truthyB_id (o : Option Bool) (ho : o ≠ some false) :
    (if truthyB o then o else none) = o := by
  cases o with
  | none => rfl
  | some b =>
    cases b with
    | true => rfl
    | false => exact absurd rfl ho

theorem opt_truthyN_id (o : Option Nat) (ho : o ≠ some 0) :
    (if truthyN o then o else none) = o := by
  cases o with
  | none => rfl
  | some n =>
    cases n with
    | zero => exact absurd rfl ho
    | succ m => rfl

/-- Field-by-field round trip of a clean style through capture, inline
wrapping and re-application (every claim-listed field; `colorType` is
not among them). -/
theorem apply_capture (st : RunStyle) (text : List Char)
    (hb : st.bold ≠ some false) (hi : st.italic ≠ some false)
    (hu : st.underline ≠ some false)
    (hcemp : st.color ≠ some []) (hhemp : st.highlight ≠ some [])
    (hname : st.name ≠ some []) (hsid : st.styleId ≠ some [])
    (hsz : st.size ≠ some 0)
    (hshd1 : st.shading ≠ some []) (hshd2 : st.shading ≠ some (toL "auto"))
    (htlt : ∀ c ∈ text, c ≠ '<')
    (hclt : ∀ c ∈ st.color.getD [], c ≠ '<')
    (hhlt : ∀ c ∈ st.highlight.getD [], c ≠ '<') :
    (applyRunStyle (captureStyle st) (wrapText st text)).bold = st.bold
    ∧ (applyRunStyle (captureStyle st) (wrapText st text)).italic = st.italic
    ∧ (applyRunStyle (captureStyle st) (wrapText st text)).underline = st.underline
    ∧ (applyRunStyle (captureStyle st) (wrapText st text)).color = st.color
    ∧ (applyRunStyle (captureStyle st) (wrapText st text)).highlight = st.highlight
    ∧ (applyRunStyle (captureStyle st) (wrapText st text)).shading = st.shading
    ∧ (applyRunStyle (captureStyle st) (wrapText st text)).name = st.name
    ∧ (applyRunStyle (captureStyle st) (wrapText st text)).size = st.size
    ∧ (applyRunStyle (captureStyle st) (wrapText st text)).styleId = st.styleId := by
  refine ⟨?_, ?_, ?_, ?_, ?_, ?_, ?_, ?_, ?_⟩
  · -- bold
    show (if containsSub (toL "<b>") (wrapText st text) then some true
      else if truthyB (captureStyle st).bold then some true else none) = st.bold
    cases hsb : st.bold with
    | none =>
      have hsafe : segSafe 'b' (wrapText st text) = true := by
        rw [wrapText_eq]
        refine segSafe_hWrap 'b' (by decide) (by decide) _ _ _ hhlt
          (segSafe_cWrap 'b' (by decide) (by decide) _ _ _ hclt
            (segSafe_uWrap 'b' (by decide) (by decide) _ _
              (segSafe_iWrap 'b' (by decide) (by decide) _ _ ?_)))
        rw [hsb]
        exact segSafe_no_lt 'b' text htlt
      have hns : ¬ SubP (toL "<b>") (wrapText st text) := by
        rw [show toL "<b>" = '<' :: 'b' :: ('>' :: []) from rfl]
        exact not_SubP_of_segSafe ('>' :: []) _ hsafe
      have hcs : containsSub (toL "<b>") (wrapText st text) = false := by
        cases hcb : containsSub (toL "<b>") (wrapText st text)
        · rfl
        · exact absurd ((containsSub_iff_SubP _ _).1 hcb) hns
      rw [hcs]
      show (if truthyB (captureStyle st).bold then some true else none) = none
      have : (captureStyle st).bold = none := by
        show st.bold = none
        exact hsb
      rw [this]
      rfl
    | some b =>
      cases b with
      | false => exact absurd hsb hb
      | true =>
        have : (captureStyle st).bold = some true := by
          show st.bold = some true
          exact hsb
        rw [this]
        cases containsSub (toL "<b>") (wrapText st text) <;> rfl
  · -- italic
    show (if containsSub (toL "<i>") (wrapText st text) then some true
      else if truthyB (captureStyle st).italic then some true else none) = st.italic
    cases hsi : st.italic with
    | none =>
      have hsafe : segSafe 'i' (wrapText st text) = true := by
        rw [wrapText_eq]
        refine segSafe_hWrap 'i' (by decide) (by decide) _ _ _ hhlt
          (segSafe_cWrap 'i' (by decide) (by decide) _ _ _ hclt
            (segSafe_uWrap 'i' (by decide) (by decide) _ _ ?_))
        rw [hsi]
        show segSafe 'i' (bWrap (truthyB st.bold) text) = true
        exact segSafe_bWrap 'i' (by decide) (by decide) _ _ (segSafe_no_lt 'i' text htlt)
      have hns : ¬ SubP (toL "<i>") (wrapText st text) := by
        rw [show toL "<i>" = '<' :: 'i' :: ('>' :: []) from rfl]
        exact not_SubP_of_segSafe ('>' :: []) _ hsafe
      have hcs : containsSub (toL "<i>") (wrapText st text) = false := by
        cases hcb : containsSub (toL "<i>") (wrapText st text)
        · rfl
        · exact absurd ((containsSub_iff_SubP _ _).1 hcb) hns
      rw [hcs]
      show (if truthyB (captureStyle st).italic then some true else none) = none
      have : (captureStyle st).italic = none := by
        show st.italic = none
        exact hsi
      rw [this]
      rfl
    | some b =>
      cases b with
      | false => exact absurd hsi hi
      | true =>
        have : (captureStyle st).italic = some true := by
          show st.italic = some true
          exact hsi
        rw [this]
        cases containsSub (toL "<i>") (wrapText st text) <;> rfl
  · -- underline
    show (if truthyB (captureStyle st).underline then (captureStyle st).underline
      else none) = st.underline
    exact opt_truthyB_id st.underline hu
  · -- color: double gate
    show (if truthyS (captureStyle st).color then (captureStyle st).color else none)
      = st.color
    have hcap : (captureStyle st).color = st.color := by
      show (if truthyS st.color then st.color else none) = st.color
      exact opt_truthyS_id st.color hcemp
    rw [hcap]
    exact opt_truthyS_id st.color hcemp
  · -- highlight
    show (if truthyS (captureStyle st).highlight then (captureStyle st).highlight
      else none) = st.highlight
    exact opt_truthyS_id st.highlight hhemp
  · -- shading
    show (if truthyS (captureStyle st).shading then (captureStyle st).shading
      else none) = st.shading
    have hcap : (captureStyle st).shading = st.shading := by
      show (match st.shading with
        | none => none
        | some f => if f ≠ [] ∧ f ≠ toL "auto" then some f else none) = st.shading
      cases hss : st.shading with
      | none => rfl
      | some f =>
        show (if f ≠ [] ∧ f ≠ toL "auto" then some f else none) = some f
        rw [if_pos ⟨fun hf => hshd1 (by rw [hss, hf]), fun hf => hshd2 (by rw [hss, hf])⟩]
    rw [hcap]
    cases hss : st.shading with
    | none => rfl
    | some f =>
      cases f with
      | nil => exact absurd hss hshd1
      | cons a l => rfl
  · -- name
    show (if truthyS (captureStyle st).name then (captureStyle st).name else none)
      = st.name
    exact opt_truthyS_id st.name hname
  · -- size
    show (if truthyN (captureStyle st).size then (captureStyle st).size else none)
      = st.size
    exact opt_truthyN_id st.size hsz
  · -- styleId
    show (if truthyS (captureStyle st).styleId then (captureStyle st).styleId else none)
      = st.styleId
    exact opt_truthyS_id st.styleId hsid

/-- Characters of the run text that interfere with no layer of the
encoding: the inline-tag characters, the entity escapes and the span
brackets. -/
def textClean (s : List Char) : Bool :=
  s.all fun c => !(c = '<' || c = '&' || c = '[')

/-- Characters safe inside a quoted tag attribute value. -/
def attrClean (s : List Char) : Bool :=
  s.all fun c => !(c = '<' || c = '"' || c = '[')

/-- A run that the encode/decode cycle can reproduce exactly: non-empty
marker-free text, no explicitly-false boolean formatting, no empty or
`auto` string attributes, no zero size, and no empty hyperlink URL. -/
def cleanRun (r : Run) : Bool :=
  !r.text.isEmpty && textClean r.text
  && attrClean (r.style.color.getD []) && attrClean (r.style.highlight.getD [])
  && decide (r.style.bold ≠ some false) && decide (r.style.italic ≠ some false)
  && decide (r.style.underline ≠ some false)
  && decide (r.style.color ≠ some []) && decide (r.style.highlight ≠ some [])
  && decide (r.style.name ≠ some []) && decide (r.style.styleId ≠ some [])
  && decide (r.style.size ≠ some 0)
  && decide (r.style.shading ≠ some []) && decide (r.style.shading ≠ some (toL "auto"))
  && decide (r.hyperlink ≠ some [])

/-- Forget the `color_type` attribute, which the claim's field list does
not include. -/
def eraseCT (r : Run) : Run :=
  { r with style := { r.style with colorType := none } }

theorem cleanRun_spec {r : Run} (h : cleanRun r = true) :
    r.text ≠ []
    ∧ (∀ c ∈ r.text, c ≠ '<' ∧ c ≠ '&' ∧ c ≠ '[')
    ∧ (∀ c ∈ r.style.color.getD [], c ≠ '<' ∧ c ≠ '"' ∧ c ≠ '[')
    ∧ (∀ c ∈ r.style.highlight.getD [], c ≠ '<' ∧ c ≠ '"' ∧ c ≠ '[')
    ∧ r.style.bold ≠ some false ∧ r.style.italic ≠ some false
    ∧ r.style.underline ≠ some false
    ∧ r.style.color ≠ some [] ∧ r.style.highlight ≠ some []
    ∧ r.style.name ≠ some [] ∧ r.style.styleId ≠ some []
    ∧ r.style.size ≠ some 0
    ∧ r.style.shading ≠ some [] ∧ r.style.shading ≠ some (toL "auto")
    ∧ r.hyperlink ≠ some [] := by
  simp only [cleanRun, Bool.and_eq_true, decide_eq_true_eq] at h
  obtain ⟨⟨⟨⟨⟨⟨⟨⟨⟨⟨⟨⟨⟨⟨hA, hB⟩, hC⟩, hD⟩, hE⟩, hF⟩, hG⟩, hH⟩, hI⟩, hJ⟩, hK⟩,
    hL⟩, hM⟩, hN⟩, hO⟩ := h
  refine ⟨?_, ?_, ?_, ?_, hE, hF, hG, hH, hI, hJ, hK, hL, hM, hN, hO⟩
  · intro hc
    rw [hc] at hA
    exact absurd hA (by decide)
  · intro c hc
    have h2 := List.all_eq_true.1 hB c hc
    simp at h2
    exact ⟨h2.1.1, h2.1.2, h2.2⟩
  · intro c hc
    have h2 := List.all_eq_true.1 hC c hc
    simp at h2
    exact ⟨h2.1.1, h2.1.2, h2.2⟩
  · intro c hc
    have h2 := List.all_eq_true.1 hD c hc
    simp at h2
    exact ⟨h2.1.1, h2.1.2, h2.2⟩

theorem mem_wrap_cases {c : Char} {f : Bool} {A B X : List Char}
    (hc : c ∈ (if f then A ++ X ++ B else X)) : c ∈ A ∨ c ∈ B ∨ c ∈ X := by
  cases f
  · exact Or.inr (Or.inr (by simpa using hc))
  · simp only [if_true, List.mem_append] at hc
    rcases hc with (h | h) | h
    · exact Or.inl h
    · exact Or.inr (Or.inr h)
    · exact Or.inr (Or.inl h)

theorem wrapText_no_bracket (st : RunStyle) (text : List Char)
    (htext : ∀ c ∈ text, c ≠ '[')
    (hcol : ∀ c ∈ st.color.getD [], c ≠ '[')
    (hhl : ∀ c ∈ st.highlight.getD [], c ≠ '[') :
    ∀ c ∈ wrapText st text, c ≠ '[' := by
  rw [wrapText_eq]
  intro c hc
  rw [show hWrap (truthyS st.highlight) (st.highlight.getD [])
      (cWrap (truthyS st.color) (st.color.getD [])
        (uWrap (truthyB st.underline)
          (iWrap (truthyB st.italic) (bWrap (truthyB st.bold) text))))
    = if truthyS st.highlight
      then (toL "<h col=\"" ++ st.highlight.getD [] ++ toL "\">")
        ++ (cWrap (truthyS st.color) (st.color.getD [])
            (uWrap (truthyB st.underline)
              (iWrap (truthyB st.italic) (bWrap (truthyB st.bold) text))))
        ++ toL "</h>"
      else cWrap (truthyS st.color) (st.color.getD [])
        (uWrap (truthyB st.underline)
          (iWrap (truthyB st.italic) (bWrap (truthyB st.bold) text))) from rfl] at hc
  rcases mem_wrap_cases hc with h1 | h1 | h1
  · rcases List.mem_append.1 h1 with h2 | h2
    · rcases List.mem_append.1 h2 with h3 | h3
      · exact (by decide : ∀ x ∈ toL "<h col=\"", x ≠ '[') c h3
      · exact hhl c h3
    · exact (by decide : ∀ x ∈ toL "\">", x ≠ '[') c h2
  · exact (by decide : ∀ x ∈ toL "</h>", x ≠ '[') c h1
  · rw [show cWrap (truthyS st.color) (st.color.getD [])
        (uWrap (truthyB st.underline)
          (iWrap (truthyB st.italic) (bWrap (truthyB st.bold) text)))
      = if truthyS st.color
        then (toL "<c rgb=\"" ++ st.color.getD [] ++ toL "\">")
          ++ (uWrap (truthyB st.underline)
              (iWrap (truthyB st.italic) (bWrap (truthyB st.bold) text)))
          ++ toL "</c>"
        else uWrap (truthyB st.underline)
          (iWrap (truthyB st.italic) (bWrap (truthyB st.bold) text)) from rfl] at h1
    rcases mem_wrap_cases h1 with h2 | h2 | h2
    · rcases List.mem_append.1 h2 with h3 | h3
      · rcases List.mem_append.1 h3 with h4 | h4
        · exact (by decide : ∀ x ∈ toL "<c rgb=\"", x ≠ '[') c h4
        · exact hcol c h4
      · exact (by decide : ∀ x ∈ toL "\">", x ≠ '[') c h3
    · exact (by decide : ∀ x ∈ toL "</c>", x ≠ '[') c h2
    · rw [show uWrap (truthyB st.underline)
          (iWrap (truthyB st.italic) (bWrap (truthyB st.bold) text))
        = if truthyB st.underline
          then toL "<u>" ++ (iWrap (truthyB st.italic) (bWrap (truthyB st.bold) text))
            ++ toL "</u>"
          else iWrap (truthyB st.italic) (bWrap (truthyB st.bold) text) from rfl] at h2
      rcases mem_wrap_cases h2 with h3 | h3 | h3
      · exact (by decide : ∀ x ∈ toL "<u>", x ≠ '[') c h3
      · exact (by decide : ∀ x ∈ toL "</u>", x ≠ '[') c h3
      · rw [show iWrap (truthyB st.italic) (bWrap (truthyB st.bold) text)
          = if truthyB st.italic
            then toL "<i>" ++ (bWrap (truthyB st.bold) text) ++ toL "</i>"
            else bWrap (truthyB st.bold) text from rfl] at h3
        rcases mem_wrap_cases h3 with h4 | h4 | h4
        · exact (by decide : ∀ x ∈ toL "<i>", x ≠ '[') c h4
        · exact (by decide : ∀ x ∈ toL "</i>", x ≠ '[') c h4
        · rw [show bWrap (truthyB st.bold) text
            = if truthyB st.bold
              then toL "<b>" ++ text ++ toL "</b>"
              else text from rfl] at h4
          rcases mem_wrap_cases h4 with h5 | h5 | h5
          · exact (by decide : ∀ x ∈ toL "<b>", x ≠ '[') c h5
          · exact (by decide : ∀ x ∈ toL "</b>", x ≠ '[') c h5
          · exact htext c h5

/-- Decode-side induction for the round trip: `k` is the current run
counter, `S0` the styles of previously kept runs, `H0` hyperlink entries
with indices below `k`.  Decoding the spans of the remaining encoding
reproduces the remaining clean runs up to `color_type`. -/
theorem roundtrip_aux :
    ∀ (runs : List Run) (k : Nat) (S0 : List RunStyle) (H0 : List (Nat × List Char)),
      runs.all cleanRun = true → S0.length = k → (∀ e ∈ H0, e.1 < k) →
      (((findSpans (encodeAux k runs).1).filterMap fun dc =>
          if digitsVal dc.1 < (S0 ++ (encodeAux k runs).2.1).length then
            if (parse_and_extract_text dc.2).isEmpty then none
            else some ({ text := parse_and_extract_text dc.2
                         style := applyRunStyle
                           ((S0 ++ (encodeAux k runs).2.1).getD (digitsVal dc.1) freshStyle)
                           dc.2
                         hyperlink := lookupA (digitsVal dc.1)
                           (H0 ++ (encodeAux k runs).2.2) } : Run)
          else none).map eraseCT)
        = runs.map eraseCT := by
  intro runs
  induction runs with
  | nil =>
    intro k S0 H0 _ _ _
    rfl
  | cons r rs ih =>
    intro k S0 H0 hall hS0 hH0
    rw [List.all_cons, Bool.and_eq_true] at hall
    obtain ⟨htne, htcl, hccl, hhcl, hbold, hital, hund, hcne, hhne, hnne, hsne,
      hszne, hsh1, hsh2, hhyp⟩ := cleanRun_spec hall.1
    have hallrs : rs.all cleanRun = true := hall.2
    have htext_ne : r.text.isEmpty = false := by
      cases htx : r.text with
      | nil => exact absurd htx htne
      | cons a l => rfl
    have hcond : ¬ (r.text.isEmpty = true) := by
      rw [htext_ne]
      exact fun hx => absurd hx (by decide)
    have h1 : (encodeAux k (r :: rs)).1
        = openMark k ++ (wrapText r.style r.text
            ++ (closeMark k ++ (encodeAux (k + 1) rs).1)) := by
      rw [encodeAux, if_neg hcond]
      simp [List.append_assoc]
    have h2 : (encodeAux k (r :: rs)).2.1
        = captureStyle r.style :: (encodeAux (k + 1) rs).2.1 := by
      rw [encodeAux, if_neg hcond]
    have h3 : (encodeAux k (r :: rs)).2.2
        = (match r.hyperlink with
           | some u => if u.isEmpty then (encodeAux (k + 1) rs).2.2
                       else (k, u) :: (encodeAux (k + 1) rs).2.2
           | none => (encodeAux (k + 1) rs).2.2) := by
      rw [encodeAux, if_neg hcond]
    have hparse : parse_and_extract_text (wrapText r.style r.text) = r.text :=
      parse_wrapText r.style r.text (fun c hc => ⟨(htcl c hc).1, (htcl c hc).2.1⟩)
        (fun c hc => ⟨(hccl c hc).1, (hccl c hc).2.1⟩)
        (fun c hc => ⟨(hhcl c hc).1, (hhcl c hc).2.1⟩)
    have hwbr : ∀ c ∈ wrapText r.style r.text, c ≠ '[' :=
      wrapText_no_bracket r.style r.text (fun c hc => (htcl c hc).2.2)
        (fun c hc => (hccl c hc).2.2) (fun c hc => (hhcl c hc).2.2)
    have hgetD : (S0 ++ captureStyle r.style :: (encodeAux (k + 1) rs).2.1).getD k
          freshStyle = captureStyle r.style := by
      conv_lhs => rw [← hS0]
      exact getD_append_self freshStyle S0 _ _
    have hlen : k < (S0 ++ captureStyle r.style :: (encodeAux (k + 1) rs).2.1).length := by
      rw [List.length_append, hS0, List.length_cons]
      omega
    have hS1 : (S0 ++ [captureStyle r.style]).length = k + 1 := by
      rw [List.length_append, hS0]
      rfl
    have hassocS : S0 ++ captureStyle r.style :: (encodeAux (k + 1) rs).2.1
        = (S0 ++ [captureStyle r.style]) ++ (encodeAux (k + 1) rs).2.1 := by
      simp
    have happly := apply_capture r.style r.text hbold hital hund hcne hhne hnne hsne
      hszne hsh1 hsh2 (fun c hc => (htcl c hc).1) (fun c hc => (hccl c hc).1)
      (fun c hc => (hhcl c hc).1)
    rw [h1, h2, h3,
      findSpans_step k (wrapText r.style r.text) (encodeAux (k + 1) rs).1 hwbr]
    cases hru : r.hyperlink with
    | some u =>
      have hue : u ≠ [] := by
        intro hu
        exact hhyp (by rw [hru, hu])
      have hune : u.isEmpty = false := by
        cases u with
        | nil => exact absurd rfl hue
        | cons a l => rfl
      rw [show (match some u with
           | some u2 => if u2.isEmpty then (encodeAux (k + 1) rs).2.2
                        else (k, u2) :: (encodeAux (k + 1) rs).2.2
           | none => (encodeAux (k + 1) rs).2.2)
          = if u.isEmpty then (encodeAux (k + 1) rs).2.2
            else (k, u) :: (encodeAux (k + 1) rs).2.2 from rfl,
        hune, if_neg (show ¬ (false = true) by decide)]
      have hlook : lookupA k (H0 ++ (k, u) :: (encodeAux (k + 1) rs).2.2) = some u := by
        rw [lookupA_append_ne k H0 _ (fun e he => Nat.ne_of_lt (hH0 e he)), lookupA,
          if_pos rfl]
      have hfh : (if digitsVal (natToDigits k)
            < (S0 ++ captureStyle r.style :: (encodeAux (k + 1) rs).2.1).length then
          if (parse_and_extract_text (wrapText r.style r.text)).isEmpty then none
          else some ({ text := parse_and_extract_text (wrapText r.style r.text)
                       style := applyRunStyle ((S0 ++ captureStyle r.style
                           :: (encodeAux (k + 1) rs).2.1).getD (digitsVal (natToDigits k))
                           freshStyle) (wrapText r.style r.text)
                       hyperlink := lookupA (digitsVal (natToDigits k))
                         (H0 ++ (k, u) :: (encodeAux (k + 1) rs).2.2) } : Run)
          else none)
          = some ({ text := r.text
                    style := applyRunStyle (captureStyle r.style) (wrapText r.style r.text)
                    hyperlink := some u } : Run) := by
        rw [digitsVal_natToDigits, if_pos hlen, hparse, htext_ne,
          if_neg (show ¬ (false = true) by decide), hgetD, hlook]
      have hhead : eraseCT ⟨r.text,
          applyRunStyle (captureStyle r.style) (wrapText r.style r.text),
          some u⟩ = eraseCT r := by
        obtain ⟨hb2, hi2, hu2, hc2, hh2, hs2, hn2, hz2, hsid2⟩ := happly
        simp only [eraseCT, Run.mk.injEq, RunStyle.mk.injEq]
        exact ⟨trivial, ⟨hb2, hi2, hu2, hc2, trivial, hz2, hn2, hh2, hs2, hsid2⟩, hru.symm⟩
      have htail := ih (k + 1) (S0 ++ [captureStyle r.style]) (H0 ++ [(k, u)]) hallrs hS1
        (by
          intro e he
          rcases List.mem_append.1 he with hx | hx
          · exact Nat.lt_succ_of_lt (hH0 e hx)
          · rw [List.mem_singleton.1 hx]
            exact Nat.lt_succ_self k)
      have hassocH : H0 ++ (k, u) :: (encodeAux (k + 1) rs).2.2
          = (H0 ++ [(k, u)]) ++ (encodeAux (k + 1) rs).2.2 := by
        simp
      rw [List.filterMap_cons]
      simp only [hfh]
      rw [List.map_cons, List.map_cons, hhead, hassocS, hassocH, htail]
    | none =>
      rw [show (match (none : Option (List Char)) with
           | some u2 => if u2.isEmpty then (encodeAux (k + 1) rs).2.2
                        else (k, u2) :: (encodeAux (k + 1) rs).2.2
           | none => (encodeAux (k + 1) rs).2.2)
          = (encodeAux (k + 1) rs).2.2 from rfl]
      have hlook : lookupA k (H0 ++ (encodeAux (k + 1) rs).2.2) = none := by
        rw [lookupA_append_ne k H0 _ (fun e he => Nat.ne_of_lt (hH0 e he))]
        refine lookupA_none k _ (fun e he => ?_)
        have := encodeAux_hyper_keys (k + 1) rs e he
        omega
      have hfh : (if digitsVal (natToDigits k)
            < (S0 ++ captureStyle r.style :: (encodeAux (k + 1) rs).2.1).length then
          if (parse_and_extract_text (wrapText r.style r.text)).isEmpty then none
          else some ({ text := parse_and_extract_text (wrapText r.style r.text)
                       style := applyRunStyle ((S0 ++ captureStyle r.style
                           :: (encodeAux (k + 1) rs).2.1).getD (digitsVal (natToDigits k))
                           freshStyle) (wrapText r.style r.text)
                       hyperlink := lookupA (digitsVal (natToDigits k))
                         (H0 ++ (encodeAux (k + 1) rs).2.2) } : Run)
          else none)
          = some ({ text := r.text
                    style := applyRunStyle (captureStyle r.style) (wrapText r.style r.text)
                    hyperlink := none } : Run) := by
        rw [digitsVal_natToDigits, if_pos hlen, hparse, htext_ne,
          if_neg (show ¬ (false = true) by decide), hgetD, hlook]
      have hhead : eraseCT ⟨r.text,
          applyRunStyle (captureStyle r.style) (wrapText r.style r.text),
          (none : Option (List Char))⟩ = eraseCT r := by
        obtain ⟨hb2, hi2, hu2, hc2, hh2, hs2, hn2, hz2, hsid2⟩ := happly
        simp only [eraseCT, Run.mk.injEq, RunStyle.mk.injEq]
        exact ⟨trivial, ⟨hb2, hi2, hu2, hc2, trivial, hz2, hn2, hh2, hs2, hsid2⟩, hru.symm⟩
      have htail := ih (k + 1) (S0 ++ [captureStyle r.style]) H0 hallrs hS1
        (fun e he => Nat.lt_succ_of_lt (hH0 e he))
      rw [List.filterMap_cons]
      simp only [hfh]
      rw [List.map_cons, List.map_cons, hhead, hassocS, htail]

/-- C1 (amended): for every sequence of clean runs — non-empty text free
of the markup characters `<`, `&` and `[`; `bold`, `italic`, `underline`
never explicitly `False`; colour and highlight values free of `<`, `"`
and `[`; no empty-string colour, highlight, font name, style id, shading
or hyperlink attribute; no `auto` shading; no zero size — decoding the
encoded tagged fragment with the identity translation reproduces exactly
the original runs in every claim-listed field: text, bold, italic,
underline, colour, highlight, shading, font name, size, character-style
id and hyperlink target (`color_type`, which the claim's field list
omits, is projected away on both sides). -/
theorem C1_roundtrip_identity (runs : List Run) (h : runs.all cleanRun = true) :
    (tags_to_paragraph runs (paragraph_to_tagged_text runs).1
        (paragraph_to_tagged_text runs).2.1
        (paragraph_to_tagged_text runs).2.2).map eraseCT
      = runs.map eraseCT := by
  have haux := roundtrip_aux runs 0 [] [] h rfl
    (fun e he => absurd he (List.not_mem_nil e))
  simpa only [tags_to_paragraph, paragraph_to_tagged_text, List.nil_append] using haux

/-- Concrete clean runs for the round-trip witness: one fully styled
hyperlinked run and one plain run. -/
def C1wruns : List Run :=
  [⟨toL "Hi", ⟨some true, none, some true, some (toL "F0"), none, some 2, some (toL "A"),
     some (toL "y"), some (toL "B"), some (toL "S")⟩, some (toL "u")⟩,
   ⟨toL "x y", ⟨none, none, none, none, none, none, none, none, none, none⟩, none⟩]

theorem C1_roundtrip_identity_witness :
    (C1wruns.all cleanRun = true)
    ∧ (tags_to_paragraph C1wruns (paragraph_to_tagged_text C1wruns).1
        (paragraph_to_tagged_text C1wruns).2.1
        (paragraph_to_tagged_text C1wruns).2.2).map eraseCT = C1wruns.map eraseCT :=
  ⟨by decide, C1_roundtrip_identity C1wruns (by decide)⟩

/-- A run whose `bold` attribute is explicitly `False`, with plain
marker-free text. -/
def C1cruns : List Run :=
  [⟨toL "x", ⟨some false, none, none, none, none, none, none, none, none, none⟩, none⟩]

/-- C1 counterexample: a run with `bold = False` (text free of
source-language markers) does not survive the round trip — decoding
returns `bold = None` — so the unrestricted round-trip identity of the
claim fails on the claim's own field list. -/
theorem C1_counterexample :
    (tags_to_paragraph C1cruns (paragraph_to_tagged_text C1cruns).1
        (paragraph_to_tagged_text C1cruns).2.1
        (paragraph_to_tagged_text C1cruns).2.2).map eraseCT ≠ C1cruns.map eraseCT := by
  decide

theorem corrections_self_ok :
    (corrections.all fun e => noCreateB e.1 e.2) = true := by decide

theorem corrections_cross_ok :
    (corrections.all fun e =>
      corrections.all fun f => noCreatePB e.1 f.1 f.2) = true := by decide

theorem corrections_keys_ok :
    (corrections.all fun e => spaceOk e.1 && !e.1.isEmpty) = true := by decide

/-- C7: `fix_concatenation_errors` is idempotent.  The correction pass
removes every table key, no replacement value can recreate one (checked
pairwise on the table), the keys are space-safe so the
lowercase–uppercase spacing pass cannot resurrect them, and that spacing
pass is itself idempotent; hence a second application of the cleanup
changes nothing. -/
theorem C7_cleanup_idempotent (x : List Char) :
    fix_concatenation_errors (fix_concatenation_errors x) =
      fix_concatenation_errors x := by
  have hself : ∀ e ∈ corrections, noCreateB e.1 e.2 = true :=
    fun e he => List.all_eq_true.1 corrections_self_ok e he
  have hcross : ∀ e ∈ corrections, ∀ f ∈ corrections, noCreatePB e.1 f.1 f.2 = true :=
    fun e he f hf => List.all_eq_true.1 (List.all_eq_true.1 corrections_cross_ok e he) f hf
  have hkeys : ∀ e ∈ corrections, spaceOk e.1 = true ∧ e.1 ≠ [] := by
    intro e he
    have h := List.all_eq_true.1 corrections_keys_ok e he
    simp only [Bool.and_eq_true, Bool.not_eq_true'] at h
    refine ⟨h.1, fun hc => ?_⟩
    rw [hc] at h
    exact absurd h.2 (by decide)
  have hfree : ∀ e ∈ corrections, ¬ SubP e.1 (spaceLU (applyCorrections x)) := by
    intro e he hocc
    have h1 : SubP e.1 (applyCorrections x) :=
      subP_spaceLU (applyCorrections x).length (applyCorrections x) le_rfl e.1
        (hkeys e he).1 hocc
    exact foldl_kills_keys corrections x hself hcross e he h1
  have hcorr : applyCorrections (spaceLU (applyCorrections x)) =
      spaceLU (applyCorrections x) :=
    foldl_id_of_kfree corrections (spaceLU (applyCorrections x))
      (fun e he => (hkeys e he).2) hfree
  show spaceLU (applyCorrections (spaceLU (applyCorrections x))) =
    spaceLU (applyCorrections x)
  rw [hcorr]
  exact spaceLU_id (spaceLU (applyCorrections x)).length (spaceLU (applyCorrections x))
    le_rfl (hasLU_spaceLU (applyCorrections x).length (applyCorrections x) le_rfl)

end DocTranslate
